import Mathlib

/-!
# openim-project-template: the build utility and the user conversion

A shallow embedding of `pkg/util/p.go` (tool installation, protoc download and
extraction, proto compilation, the `,omitempty` patcher) and of
`pkg/common/convert/user.go`, with the properties of the specification stated
over it.

Go strings and file contents are byte sequences (`List Byte`).  The file system
is a finite tree seen as a map from paths (lists of components) to nodes.
Everything outside the program (the `go` and `protoc` commands, the network,
directory listings) is a field of `Host`.  Output printed with `fmt.Print*` is
not modelled.
-/

namespace ProjectTemplate

/-! ## Bytes and strings -/

abbrev Byte := UInt8

/-- The bytes of an ASCII string literal. -/
def bytes (s : String) : List Byte := s.toList.map (fun c => UInt8.ofNat c.toNat)

/-- Line feed. -/
def LF : Byte := 10

/-- Carriage return. -/
def CR : Byte := 13

/-- The token removed by the patcher: the literal `",omitempty"` of p.go line 190. -/
def omitemptyTag : List Byte := [44, 111, 109, 105, 116, 101, 109, 112, 116, 121]

/-- Go `strings.Index(s, old)`: the offset of the first occurrence of `old` in `s`. -/
def Index : List Byte → List Byte → Option Nat
  | [], old => if old = [] then some 0 else none
  | b :: s, old =>
    if old.isPrefixOf (b :: s) then some 0
    else (Index s old).map (· + 1)

/-- The replacement loop of Go `strings.Replace` for a non-empty `old`: find the next
occurrence at or after the cursor, copy what precedes it, write `new`, and go on
behind the occurrence.  The counter bounds the number of replacements. -/
def replaceLoop (old new : List Byte) : Nat → List Byte → List Byte
  | 0, s => s
  | n + 1, s =>
    match Index s old with
    | none => s
    | some j => s.take j ++ new ++ replaceLoop old new n (s.drop (j + old.length))

/-- Go `strings.ReplaceAll(s, old, new)` for a non-empty `old` (the only use in the
program): every non-overlapping occurrence, leftmost first, is replaced.  An empty
`old`, which Go treats rune by rune, returns `s` here. -/
def ReplaceAll (s old new : List Byte) : List Byte :=
  if old = new ∨ old = [] then s else replaceLoop old new s.length s

/-! ## bufio.Scanner with the default split function -/

/-- Go `bytes.IndexByte`. -/
def IndexByte : List Byte → Byte → Option Nat
  | [], _ => none
  | b :: s, c => if b = c then some 0 else (IndexByte s c).map (· + 1)

/-- Go `bufio.dropCR`: drop one trailing carriage return. -/
def dropCR (data : List Byte) : List Byte :=
  if data.getLast? = some CR then data.dropLast else data

/-- Go `bufio.ScanLines`: `(advance, token)`; no token means "need more data". -/
def ScanLines (data : List Byte) (atEOF : Bool) : Nat × Option (List Byte) :=
  if atEOF && data.isEmpty then (0, none)
  else
    match IndexByte data LF with
    | some i => (i + 1, some (dropCR (data.take i)))
    | none => if atEOF then (data.length, some (dropCR data)) else (0, none)

/-- Go `bufio.MaxScanTokenSize`, the buffer limit of a default scanner. -/
def MaxScanTokenSize : Nat := 64 * 1024

inductive ScanResult where
  | token (text : List Byte) (unread : List Byte)
  | eof
  | errTooLong
deriving DecidableEq

/-- One call of `Scanner.Scan` on the unread input.  The split function sees at most
`MaxScanTokenSize` buffered bytes; end of input is noticed only when the buffer
is not full.  A full buffer without a token is `bufio.ErrTooLong`. -/
def Scan (unread : List Byte) : ScanResult :=
  let atEOF := decide (unread.length < MaxScanTokenSize)
  match ScanLines (unread.take MaxScanTokenSize) atEOF with
  | (advance, some text) => .token text (unread.drop advance)
  | (_, none) => if atEOF then .eof else .errTooLong

/-- The tokens of `for scanner.Scan() { scanner.Text() }` and the final
`scanner.Err()`.  Every token consumes at least one byte, so the counter
`data.length` used by `scanTokens` is never exhausted. -/
def scanLoop : Nat → List Byte → Except String (List (List Byte))
  | 0, _ => .ok []
  | n + 1, unread =>
    match Scan unread with
    | .token text rest => (scanLoop n rest).map (text :: ·)
    | .eof => .ok []
    | .errTooLong => .error "bufio.Scanner: token too long"

def scanTokens (data : List Byte) : Except String (List (List Byte)) :=
  scanLoop (data.length + 1) data

/-! ## The file system -/

abbrev Path := List String

/-- A path as text, for messages and command lines. -/
def Path.render (p : Path) : String := "/".intercalate p

inductive Node where
  | dir (perm : Nat)
  | file (perm : Nat) (data : List Byte)
deriving DecidableEq

/-- The file system as the process sees it: its umask and the node at each path. -/
structure FS where
  umask : Nat
  node : Path → Option Node

def FS.set (fs : FS) (p : Path) (n : Node) : FS :=
  { fs with node := fun q => if q = p then some n else fs.node q }

/-- Permission bits `perm &^ umask`. -/
def maskPerm (perm umask : Nat) : Nat := perm - (perm &&& umask)

/-- Go `os.OpenFile(p, O_WRONLY|O_CREATE|O_TRUNC, perm)`: an existing file is
truncated and keeps its mode, a missing one is created in an existing parent
directory with `perm &^ umask`. -/
def FS.openTrunc (fs : FS) (p : Path) (perm : Nat) : Except String FS :=
  match fs.node p with
  | some (.dir _) => .error ("open " ++ p.render ++ ": is a directory")
  | some (.file m _) => .ok (fs.set p (.file m []))
  | none =>
    match fs.node p.dropLast with
    | some (.dir _) => .ok (fs.set p (.file (maskPerm perm fs.umask) []))
    | some (.file _ _) => .error ("open " ++ p.render ++ ": not a directory")
    | none => .error ("open " ++ p.render ++ ": no such file or directory")

/-- Append bytes to an open file. -/
def FS.append (fs : FS) (p : Path) (data : List Byte) : FS :=
  match fs.node p with
  | some (.file m old) => fs.set p (.file m (old ++ data))
  | _ => fs

/-! ## The patcher: RemoveOmitemptyFromFile and writeLines (p.go 178-215) -/

/-- The writing loop of `writeLines`: `fmt.Fprintln(w, line)` for each line. -/
def writeLoop : List (List Byte) → List Byte → List Byte
  | [], buf => buf
  | line :: rest, buf => writeLoop rest (buf ++ line ++ [LF])

/-- Source `writeLines(lines, path)`: `os.Create`, one `Fprintln` per line, `Flush`. -/
def writeLines (lines : List (List Byte)) (path : Path) (fs : FS) : Except String FS :=
  match fs.openTrunc path 0o666 with
  | .error e => .error ("error creating file: " ++ e)
  | .ok fs1 => .ok (fs1.append path (writeLoop lines []))

/-- Line 190: `strings.ReplaceAll(line, ",omitempty", "")`. -/
def untag (line : List Byte) : List Byte := ReplaceAll line omitemptyTag []

/-- The reading loop of `RemoveOmitemptyFromFile`: each scanned line has the tag
removed and is appended to `lines`. -/
def patchLoop : List (List Byte) → List (List Byte) → List (List Byte)
  | [], lines => lines
  | line :: rest, lines => patchLoop rest (lines ++ [untag line])

/-- Source `RemoveOmitemptyFromFile(filePath)`. -/
def RemoveOmitemptyFromFile (filePath : Path) (fs : FS) : Except String FS :=
  match fs.node filePath with
  | none =>
    .error ("error opening file: open " ++ filePath.render ++ ": no such file or directory")
  | some (.dir _) =>
    .error ("error reading file: read " ++ filePath.render ++ ": is a directory")
  | some (.file _ content) =>
    match scanTokens content with
    | .error e => .error ("error reading file: " ++ e)
    | .ok tokens => writeLines (patchLoop tokens []) filePath fs

/-- A line in which no occurrence of the token is directly followed by one of the
bytes of `omitempty`: removing the occurrences cannot then form a new one. -/
def TagFree (s : List Byte) : Prop :=
  ∀ x ∈ omitemptyTag.tail, ¬ (omitemptyTag ++ [x]) <:+: s

/-- The content of the file at `p`, if there is a file. -/
def FS.content (fs : FS) (p : Path) : Option (List Byte) :=
  match fs.node p with
  | some (.file _ data) => some data
  | _ => none

/-! ## The host: everything outside the program -/

/-- A Go `error` value: `none` is `nil`. -/
abbrev GoError := Option String

/-- An entry of `os.ReadDir`. -/
structure DirEntry where
  name : String
  isDir : Bool
deriving DecidableEq

/-- An entry of an opened zip archive (`zip.File`): its name `f.Name` split at the
separators, as the archive gives it (a directory entry `bin/` is `["bin", ""]`, and
a name may hold `.` or `..`), whether it is a directory entry, its permission
bits, and what `f.Open` and `io.Copy` deliver: the bytes or an error. -/
structure ZipEntry where
  name : Path
  isDir : Bool
  perm : Nat
  data : Except String (List Byte)

/-- The observable actions of a run, in order. -/
inductive Event where
  | setenv (key value : String)
  | run (cmd : String) (args : List String)
  | httpGet (url : String)
  | readDir (path : Path)
deriving DecidableEq

/-- The environment of a run.  `lookPath p` tells whether `exec.LookPath(p)`
succeeds (each path is asked at most once in a run); `run` is `sh.Run`, an external
command that returns an error or not and may change files; `mapOrder` is the order
in which `range` yields the entries of a map in this run. -/
structure Host where
  goos : String
  goarch : String
  userProfile : Path
  lookPath : Path → Bool
  run : String → List String → FS → GoError × FS
  httpGet : String → Except String (List Byte)
  createTemp : FS → Except String Path
  zipEntries : List Byte → Except String (List ZipEntry)
  readDir : Path → FS → Except String (List DirEntry)
  glob : Path → String → FS → List Path
  mapOrder : List (String × String) → List (String × String)

/-- The state of a run: the file system and the actions so far. -/
structure World where
  fs : FS
  trace : List Event

def World.log (w : World) (e : Event) : World := { w with trace := w.trace ++ [e] }

/-- Go `sh.Run(cmd, args...)` in a world: the call is recorded and the host decides. -/
def World.run (h : Host) (cmd : String) (args : List String) (w : World) : GoError × World :=
  let r := h.run cmd args w.fs
  (r.1, { fs := r.2, trace := w.trace ++ [.run cmd args] })

/-! ## filepath.Clean and filepath.Join -/

/-- One component read by Go `filepath.Clean`, with the components kept so far as a
stack: an empty component and `.` are dropped; `..` removes the component before
it, is dropped at the root of a rooted path, and is kept where a relative path
has nothing left to remove. -/
def cleanStep (rooted : Bool) (kept : List String) (c : String) : List String :=
  if c = "" ∨ c = "." then kept
  else if c = ".." then
    match kept with
    | [] => if rooted then [] else [".."]
    | top :: below => if top = ".." then ".." :: top :: below else below
  else c :: kept

/-- Go `filepath.Clean` on the components of a path.  A rooted path starts with the
empty component; the relative path `.` is the empty list. -/
def Clean (p : Path) : Path :=
  if p.head? = some "" then "" :: (p.tail.foldl (cleanStep true) []).reverse
  else (p.foldl (cleanStep false) []).reverse

/-- Go `filepath.Join(elem...)`: the elements are joined and the result is cleaned.
Where every element is empty Go returns the empty string; here that is the empty
list, as for `.`. -/
def Join (elem : List Path) : Path := Clean elem.flatten

/-! ## unzip (p.go 93-126) -/

/-- Go `os.Mkdir(p, perm)`: the path must be free and its parent a directory. -/
def FS.mkdir (fs : FS) (p : Path) (perm : Nat) : Except String FS :=
  match fs.node p with
  | some _ => .error ("mkdir " ++ p.render ++ ": file exists")
  | none =>
    match fs.node p.dropLast with
    | some (.dir _) => .ok (fs.set p (.dir (maskPerm perm fs.umask)))
    | _ => .error ("mkdir " ++ p.render ++ ": no such file or directory")

/-- Go `os.MkdirAll(p, perm)`: an existing directory is success, an existing file
an error; otherwise the parent is made first and then `Mkdir(p)` is called.  The
counter is the number of parents left to try. -/
def mkdirAllAux (perm : Nat) : Nat → Path → FS → Except String FS
  | 0, p, fs =>
    match fs.node p with
    | some (.dir _) => .ok fs
    | some (.file _ _) => .error ("mkdir " ++ p.render ++ ": not a directory")
    | none => fs.mkdir p perm
  | n + 1, p, fs =>
    match fs.node p with
    | some (.dir _) => .ok fs
    | some (.file _ _) => .error ("mkdir " ++ p.render ++ ": not a directory")
    | none =>
      match mkdirAllAux perm n p.dropLast fs with
      | .error e => .error e
      | .ok fs1 => fs1.mkdir p perm

def FS.mkdirAll (fs : FS) (p : Path) (perm : Nat) : Except String FS :=
  mkdirAllAux perm p.length p fs

/-- The loop of `unzip` over `r.File`, each entry at `filepath.Join(dest, f.Name)`.
The error of `os.MkdirAll` is not looked at. -/
def unzipLoop (dest : Path) : List ZipEntry → FS → GoError × FS
  | [], fs => (none, fs)
  | f :: rest, fs =>
    let fpath := Join [dest, f.name]
    if f.isDir then
      match fs.mkdirAll fpath 0o777 with
      | .ok fs1 => unzipLoop dest rest fs1
      | .error _ => unzipLoop dest rest fs
    else
      match fs.openTrunc fpath f.perm with
      | .error e => (some e, fs)
      | .ok fs1 =>
        match f.data with
        | .error e => (some e, fs1)
        | .ok data => unzipLoop dest rest (fs1.append fpath data)

/-- Source `unzip(src, dest)`. -/
def unzip (h : Host) (src dest : Path) (fs : FS) : GoError × FS :=
  match fs.content src with
  | none => (some ("open " ++ src.render ++ ": no such file or directory"), fs)
  | some raw =>
    match h.zipEntries raw with
    | .error e => (some e, fs)
    | .ok files => unzipLoop dest files fs

/-! ## installProtoc and getProtocArch (p.go 53-91, 128-133) -/

/-- Source `getProtocArch(archMap, goArch)`. -/
def getProtocArch (archMap : List (String × String)) (goArch : String) : String :=
  match archMap.lookup goArch with
  | some arch => arch
  | none => goArch

/-- The `archMap` literal of `installProtoc`. -/
def archMap : List (String × String) :=
  [("amd64", "x86_64"), ("386", "x86"), ("arm64", "aarch64")]

/-- The download URL computed by `installProtoc` (lines 54-68) from `runtime.GOOS`
and `runtime.GOARCH`. -/
def protocURL (goos goarch : String) : String :=
  let version := "26.1"
  let baseURL := "https://github.com/protocolbuffers/protobuf/releases/download/v" ++ version
  let osArch := goos ++ "-" ++ getProtocArch archMap goarch
  let osArch := if goos = "windows" then "win64" else osArch
  let fileName := "protoc-" ++ version ++ "-" ++ osArch ++ ".zip"
  baseURL ++ "/" ++ fileName

/-- Source `installProtoc(installDir)`: get the archive, copy the body to a
temporary file, unzip it. -/
def installProtoc (h : Host) (installDir : Path) (w : World) : GoError × World :=
  let url := protocURL h.goos h.goarch
  let w1 := w.log (.httpGet url)
  match h.httpGet url with
  | .error e => (some e, w1)
  | .ok body =>
    match h.createTemp w1.fs with
    | .error e => (some e, w1)
    | .ok tmp =>
      let fs2 := (w1.fs.set tmp (.file 0o600 [])).append tmp body
      let r := unzip h tmp installDir fs2
      (r.1, { w1 with fs := r.2 })

/-! ## ensureToolsInstalled (p.go 17-51) -/

/-- The `tools` map literal. -/
def tools : List (String × String) :=
  [("protoc-gen-go", "google.golang.org/protobuf/cmd/protoc-gen-go@latest"),
   ("protoc-gen-go-grpc", "google.golang.org/grpc/cmd/protoc-gen-go-grpc@latest")]

/-- The install directory chosen from the operating system (lines 24-29). -/
def targetDir (h : Host) : Path :=
  if h.goos = "windows" then h.userProfile ++ ["go", "bin"] else ["", "usr", "local", "bin"]

/-- The loop over `tools` (lines 33-42). -/
def installLoop (h : Host) (dir : Path) : List (String × String) → World → GoError × World
  | [], w => (none, w)
  | (tool, path) :: rest, w =>
    if h.lookPath (dir ++ [tool]) then installLoop h dir rest w
    else
      match w.run h "go" ["install", path] with
      | (some err, w1) => (some ("failed to install " ++ tool ++ ": " ++ err), w1)
      | (none, w1) => installLoop h dir rest w1

/-- Source `ensureToolsInstalled()`. -/
def ensureToolsInstalled (h : Host) (w : World) : GoError × World :=
  let dir := targetDir h
  let w1 := w.log (.setenv "GOBIN" dir.render)
  match installLoop h dir (h.mapOrder tools) w1 with
  | (some err, w2) => (some err, w2)
  | (none, w2) =>
    if h.lookPath (dir ++ ["protoc"]) then (none, w2)
    else installProtoc h dir w2

/-! ## Protocol (p.go 136-176) -/

/-- The root `./pkg/protocol`, as `filepath.Join` cleans it. -/
def protoPath : Path := ["pkg", "protocol"]

/-- The proto file `Join(protoPath, dirName, dirName+".proto")` of a subdirectory. -/
def protoFile (dirName : String) : Path := protoPath ++ [dirName, dirName ++ ".proto"]

/-- The compiler arguments for a subdirectory (lines 149-158). -/
def protocArgs (dirName : String) : List String :=
  let outputDir := protoPath ++ [dirName]
  let module := "github.com/openimsdk/openim-project-template/pkg/protocol/" ++ dirName
  ["--go_out=" ++ outputDir.render,
   "--go_opt=module=" ++ module,
   "--go-grpc_out=" ++ outputDir.render,
   "--go-grpc_opt=module=" ++ module,
   (protoFile dirName).render]

/-- The loop over the generated files of one subdirectory (lines 166-172). -/
def patchFiles : List Path → FS → GoError × FS
  | [], fs => (none, fs)
  | file :: rest, fs =>
    match RemoveOmitemptyFromFile file fs with
    | .error e => (some ("failed to replace omitempty in " ++ file.render ++ ": " ++ e), fs)
    | .ok fs1 => patchFiles rest fs1

/-- The loop over the entries of the protocol root (lines 145-174). -/
def compileDirs (h : Host) : List DirEntry → World → GoError × World
  | [], w => (none, w)
  | dir :: rest, w =>
    if dir.isDir then
      match w.run h "protoc" (protocArgs dir.name) with
      | (some err, w1) =>
        (some ("failed to compile " ++ (protoFile dir.name).render ++ ": " ++ err), w1)
      | (none, w1) =>
        match patchFiles (h.glob (protoPath ++ [dir.name]) "*.pb.go" w1.fs) w1.fs with
        | (some err, fs2) => (some err, { w1 with fs := fs2 })
        | (none, fs2) => compileDirs h rest { w1 with fs := fs2 }
    else compileDirs h rest w

/-- Source `Protocol()`.  Line 137 calls `ensureToolsInstalled()` as a statement:
the error it returns is dropped. -/
def Protocol (h : Host) (w : World) : GoError × World :=
  let w1 := (ensureToolsInstalled h w).2
  let w2 := w1.log (.readDir protoPath)
  match h.readDir protoPath w2.fs with
  | .error e => (some ("failed to read directory: " ++ e), w2)
  | .ok dirs => compileDirs h dirs w2

/-! ## UsersDB2Pb (convert/user.go 22-32) -/

/-- Modelled from the spec: the declaration of `model.User` is not among the
sources; these are the fields `UsersDB2Pb` reads. -/
structure User where
  UserID : String
  Nickname : String
deriving DecidableEq

/-- Modelled from the spec: the generated `pbuser.UserInfo` is not among the
sources; these are the fields `UsersDB2Pb` sets, the others keep their zero value. -/
structure UserInfo where
  UserID : String
  Nickname : String
deriving DecidableEq

/-- A Go slice: `none` is the nil slice. -/
abbrev Slice (α : Type) := Option (List α)

/-- A Go pointer: `none` is nil. -/
abbrev Ptr (α : Type) := Option α

/-- The elements `range` visits: none for a nil slice. -/
def Slice.elems {α : Type} (s : Slice α) : List α := s.getD []

/-- The loop of `UsersDB2Pb`: reading a field through a nil pointer panics. -/
def convertLoop : List (Ptr User) → List (Ptr UserInfo) → Except String (List (Ptr UserInfo))
  | [], result => .ok result
  | none :: _, _ => .error "invalid memory address or nil pointer dereference"
  | some user :: rest, result =>
    convertLoop rest (result ++ [some { UserID := user.UserID, Nickname := user.Nickname }])

/-- Source `UsersDB2Pb(users)`: `make` gives a non-nil empty slice, then one append
per user. -/
def UsersDB2Pb (users : Slice (Ptr User)) : Except String (Slice (Ptr UserInfo)) :=
  (convertLoop users.elems []).map some

/-! ## Example data -/

/-- A generated file of the end-to-end scenario. -/
def userPb : Path := ["pkg", "protocol", "user", "user.pb.go"]

/-- A file system holding `pkg/protocol/user/user.pb.go` with the given content. -/
def diskWith (content : List Byte) : FS :=
  { umask := 0o022
    node := fun p =>
      if p = userPb then some (.file 0o644 content)
      else if p ∈ [[], ["pkg"], ["pkg", "protocol"], ["pkg", "protocol", "user"]] then
        some (.dir 0o755)
      else none }

/-- A generated struct with an `omitempty` tag. -/
def taggedSource : List Byte :=
  bytes "type T struct \x7b\n\tField string `json:\"field,omitempty\"`\n\x7d\n"

/-- The same struct without the tag. -/
def untaggedSource : List Byte :=
  bytes "type T struct \x7b\n\tField string `json:\"field\"`\n\x7d\n"


/-- The world before a run: nothing has happened yet. -/
def World.start (fs : FS) : World := { fs := fs, trace := [] }

/-- A host on which no tool is found and `go install` fails; the protocol root
holds the subdirectory `user` and the compiler succeeds. -/
def failingInstallHost : Host :=
  { goos := "linux"
    goarch := "amd64"
    userProfile := ["home"]
    lookPath := fun _ => false
    run := fun cmd _ fs => if cmd = "go" then (some "exit status 1", fs) else (none, fs)
    httpGet := fun _ => .error "no network"
    createTemp := fun _ => .ok ["tmp", "protoc-1.zip"]
    zipEntries := fun _ => .ok []
    readDir := fun _ _ => .ok [⟨"user", true⟩]
    glob := fun _ _ _ => []
    mapOrder := id }

/-- A host on which `protoc-gen-go` is found, `protoc-gen-go-grpc` and `protoc` are
not, `go install` succeeds and the network is down. -/
def partlyInstalledHost : Host :=
  { goos := "linux"
    goarch := "amd64"
    userProfile := ["home"]
    lookPath := fun p => decide (p = ["", "usr", "local", "bin", "protoc-gen-go"])
    run := fun _ _ fs => (none, fs)
    httpGet := fun _ => .error "no network"
    createTemp := fun _ => .ok ["tmp", "protoc-1.zip"]
    zipEntries := fun _ => .ok []
    readDir := fun _ _ => .ok []
    glob := fun _ _ _ => []
    mapOrder := List.reverse }

/-- A working tree with the protocol definition `user/user.proto`. -/
def userTree : FS :=
  { umask := 0o022
    node := fun p =>
      if p = protoFile "user" then some (.file 0o644 (bytes "syntax = \"proto3\";\n"))
      else if p ∈ [[], ["pkg"], ["pkg", "protocol"], ["pkg", "protocol", "user"]] then
        some (.dir 0o755)
      else none }

/-- The generated file of the subdirectory `alpha`. -/
def alphaPb : Path := ["pkg", "protocol", "alpha", "alpha.pb.go"]

/-- A host with all tools installed.  The protocol root holds a plain file and the
subdirectories `alpha` and `broken`; the compiler succeeds on a subdirectory whose
proto file exists, writing `alpha.pb.go`, and fails otherwise without touching a
file. -/
def compilerHost : Host :=
  { goos := "linux"
    goarch := "amd64"
    userProfile := ["home"]
    lookPath := fun _ => true
    run := fun cmd args fs =>
      if cmd = "protoc" then
        if args = protocArgs "alpha" ∧ (fs.node (protoFile "alpha")).isSome then
          (none, fs.set alphaPb (.file 0o644 taggedSource))
        else (some "exit status 1", fs)
      else (none, fs)
    httpGet := fun _ => .error "no network"
    createTemp := fun _ => .ok ["tmp", "protoc-1.zip"]
    zipEntries := fun _ => .ok []
    readDir := fun _ _ => .ok [⟨"README.md", false⟩, ⟨"alpha", true⟩, ⟨"broken", true⟩]
    glob := fun dir _ _ => if dir = protoPath ++ ["alpha"] then [alphaPb] else []
    mapOrder := id }

/-- A working tree with `alpha/alpha.proto` and an empty directory `broken`. -/
def protoTree : FS :=
  { umask := 0o022
    node := fun p =>
      if p = protoFile "alpha" then some (.file 0o644 (bytes "syntax = \"proto3\";\n"))
      else if p ∈ [[], ["pkg"], ["pkg", "protocol"], ["pkg", "protocol", "alpha"],
          ["pkg", "protocol", "broken"]] then some (.dir 0o755)
      else none }


/-- A host whose archive reader yields the directory entry `bin/`, the file
`bin/protoc` and the file `readme.txt`. -/
def archiveHost : Host :=
  { compilerHost with
    zipEntries := fun _ => .ok
      [⟨["bin", ""], true, 0o755, .ok []⟩,
       ⟨["bin", "protoc"], false, 0o755, .ok (bytes "ELF")⟩,
       ⟨["readme.txt"], false, 0o666, .ok (bytes "protoc 26.1\n")⟩] }

/-- A host whose archive reader yields the single file entry `bin/protoc`, with no
entry for the directory `bin`. -/
def flatArchiveHost : Host :=
  { compilerHost with
    zipEntries := fun _ => .ok [⟨["bin", "protoc"], false, 0o755, .ok (bytes "ELF")⟩] }

/-- A file system with an empty install directory `opt` and a downloaded archive. -/
def installTree : FS :=
  { umask := 0o022
    node := fun p =>
      if p = ["tmp", "protoc-1.zip"] then some (.file 0o600 (bytes "PK"))
      else if p ∈ [[], ["opt"], ["tmp"]] then some (.dir 0o755)
      else none }


/-- A host whose archive reader yields the file entries `a`, `./a` and `../evil`. -/
def dottedArchiveHost : Host :=
  { compilerHost with
    zipEntries := fun _ => .ok
      [⟨["a"], false, 0o644, .ok (bytes "1")⟩,
       ⟨[".", "a"], false, 0o600, .ok (bytes "2")⟩,
       ⟨["..", "evil"], false, 0o644, .ok (bytes "x")⟩] }

/-! ## ReplaceAll -/

theorem Index_bound (old : List Byte) : ∀ (s : List Byte) (j : Nat),
    Index s old = some j → j + old.length ≤ s.length := by
  intro s
  induction s with
  | nil =>
    intro j h
    unfold Index at h
    split at h
    · next h0 => simp at h; subst h; simp [h0]
    · simp at h
  | cons b s ih =>
    intro j h
    unfold Index at h
    split at h
    · next hp =>
      simp at h; subst h
      have := (List.isPrefixOf_iff_prefix.mp hp).length_le
      simpa using this
    · cases hI : Index s old with
      | none => simp [hI] at h
      | some k =>
        simp [hI] at h
        subst h
        have := ih k hI
        simp; omega

theorem replaceLoop_none (old new : List Byte) (n : Nat) (s : List Byte)
    (h : Index s old = none) : replaceLoop old new n s = s := by
  cases n <;> simp [replaceLoop, h]

theorem replaceLoop_some (old new : List Byte) (n : Nat) (s : List Byte) (j : Nat)
    (h : Index s old = some j) :
    replaceLoop old new (n + 1) s
      = s.take j ++ new ++ replaceLoop old new n (s.drop (j + old.length)) := by
  simp [replaceLoop, h]

/-- The counter of `replaceLoop` is never exhausted: any bound from the length of the
string on gives the same result. -/
theorem replaceLoop_fuel (old new : List Byte) (hold : old ≠ []) :
    ∀ (n m : Nat) (s : List Byte), s.length ≤ n → s.length ≤ m →
      replaceLoop old new n s = replaceLoop old new m s := by
  have hlen : 0 < old.length := List.length_pos.mpr hold
  have hnil : ∀ k, replaceLoop old new k [] = [] := by
    intro k
    apply replaceLoop_none
    simp [Index, hold]
  intro n
  induction n with
  | zero =>
    intro m s hn _
    have : s = [] := List.length_eq_zero.mp (Nat.le_zero.mp hn)
    subst this
    rw [hnil, hnil]
  | succ n ih =>
    intro m s hn hm
    cases m with
    | zero =>
      have : s = [] := List.length_eq_zero.mp (Nat.le_zero.mp hm)
      subst this
      rw [hnil, hnil]
    | succ m =>
      cases hI : Index s old with
      | none => rw [replaceLoop_none _ _ _ _ hI, replaceLoop_none _ _ _ _ hI]
      | some j =>
        have hb := Index_bound old s j hI
        simp only [replaceLoop, hI]
        rw [ih m (s.drop (j + old.length)) (by simp; omega) (by simp; omega)]

/-- Removal of the tag from a line, as the patcher does it. -/
theorem ReplaceAll_nil (old new : List Byte) : ReplaceAll [] old new = [] := by
  unfold ReplaceAll
  split
  · rfl
  · rfl

theorem ReplaceAll_skip (old new s : List Byte) (hold : old ≠ []) (hne : old ≠ new)
    (hp : old <+: s) : ReplaceAll s old new = new ++ ReplaceAll (s.drop old.length) old new := by
  have hlen : 0 < old.length := List.length_pos.mpr hold
  have hs : old.length ≤ s.length := hp.length_le
  unfold ReplaceAll
  simp only [hold, hne, or_self, if_false]
  obtain ⟨k, hk⟩ : ∃ k, s.length = k + 1 := ⟨s.length - 1, by omega⟩
  have hI : Index s old = some 0 := by
    cases s with
    | nil => simp at hk
    | cons b r => simp [Index, List.isPrefixOf_iff_prefix.mpr hp]
  rw [hk]
  simp only [replaceLoop, hI, List.take_zero, List.nil_append, Nat.zero_add]
  rw [replaceLoop_fuel old new hold k (s.drop old.length).length _ (by simp; omega) le_rfl]

theorem ReplaceAll_cons (old new : List Byte) (b : Byte) (r : List Byte) (hold : old ≠ [])
    (hne : old ≠ new) (hp : ¬ old <+: b :: r) :
    ReplaceAll (b :: r) old new = b :: ReplaceAll r old new := by
  unfold ReplaceAll
  simp only [hold, hne, or_self, if_false]
  have hp2 : old.isPrefixOf (b :: r) = false := by
    cases h : old.isPrefixOf (b :: r) with
    | false => rfl
    | true => exact absurd (List.isPrefixOf_iff_prefix.mp h) hp
  have hI : Index (b :: r) old = (Index r old).map (· + 1) := by
    simp [Index, hp2]
  cases hr : Index r old with
  | none =>
    rw [replaceLoop_none _ _ _ _ (by rw [hI, hr]; rfl), replaceLoop_none _ _ _ _ hr]
  | some j =>
    have hb := Index_bound old r j hr
    have hlen : 0 < old.length := List.length_pos.mpr hold
    obtain ⟨k, hk⟩ : ∃ k, r.length = k + 1 := ⟨r.length - 1, by omega⟩
    have hI2 : Index (b :: r) old = some (j + 1) := by rw [hI, hr]; rfl
    have e : j + 1 + old.length = (j + old.length) + 1 := by omega
    rw [List.length_cons, hk, replaceLoop_some _ _ _ _ _ hI2, replaceLoop_some _ _ _ _ _ hr, e]
    simp only [List.take_succ_cons, List.drop_succ_cons, List.cons_append]
    rw [replaceLoop_fuel old new hold (k + 1) k _ (by simp; omega) (by simp; omega)]


theorem untag_nil : untag [] = [] := ReplaceAll_nil _ _

theorem untag_skip (r : List Byte) : untag (omitemptyTag ++ r) = untag r := by
  unfold untag
  rw [ReplaceAll_skip omitemptyTag [] _ (by decide) (by decide) (List.prefix_append _ _)]
  simp

theorem untag_keep (b : Byte) (r : List Byte) (h : ¬ omitemptyTag <+: b :: r) :
    untag (b :: r) = b :: untag r :=
  ReplaceAll_cons omitemptyTag [] b r (by decide) (by decide) h

/-- Induction along the way `untag` reads a line: an occurrence of the tag is
skipped, any other byte is kept. -/
theorem untag_induction {P : List Byte → Prop} (hnil : P [])
    (hskip : ∀ r, P r → P (omitemptyTag ++ r))
    (hkeep : ∀ b r, ¬ omitemptyTag <+: b :: r → P r → P (b :: r)) : ∀ s, P s := by
  suffices hall : ∀ (n : Nat) (s : List Byte), s.length = n → P s from fun s => hall _ s rfl
  intro n
  induction n using Nat.strong_induction_on with
  | _ n ih =>
    intro s hn
    by_cases hp : omitemptyTag <+: s
    · obtain ⟨r, rfl⟩ := hp
      apply hskip
      exact ih r.length (by subst hn; simp [omitemptyTag]; omega) r rfl
    · cases s with
      | nil => exact hnil
      | cons b r =>
        apply hkeep b r hp
        exact ih r.length (by subst hn; simp) r rfl

theorem untag_sublist (s : List Byte) : (untag s).Sublist s := by
  induction s using untag_induction with
  | hnil => rw [untag_nil]
  | hskip r ih =>
    rw [untag_skip]
    exact ih.trans (List.sublist_append_right _ _)
  | hkeep b r hp ih =>
    rw [untag_keep b r hp]
    exact ih.cons₂ b

theorem untag_length_le (s : List Byte) : (untag s).length ≤ s.length :=
  (untag_sublist s).length_le

theorem untag_not_mem (s : List Byte) (b : Byte) (h : b ∉ s) : b ∉ untag s :=
  fun hb => h ((untag_sublist s).subset hb)

theorem untag_id (s : List Byte) (h : ¬ omitemptyTag <:+: s) : untag s = s := by
  induction s using untag_induction with
  | hnil => exact untag_nil
  | hskip r _ => exact absurd (List.infix_append' [] omitemptyTag r) h
  | hkeep b r hp ih =>
    rw [untag_keep b r hp, ih (fun hr => h (hr.trans (List.suffix_cons b r).isInfix))]

theorem TagFree.mono {s t : List Byte} (h : TagFree t) (hs : s <:+: t) : TagFree s :=
  fun x hx hi => h x hx (hi.trans hs)

theorem untag_head_letter (r : List Byte) : TagFree r → ∀ x ∈ omitemptyTag.tail,
    ∀ q, (x :: q) <+: untag r → ∃ t, r = x :: t := by
  induction r using untag_induction with
  | hnil =>
    intro _ x _ q h
    rw [untag_nil] at h
    simp at h
  | hskip r ih =>
    intro hf x hx q h
    rw [untag_skip] at h
    obtain ⟨t, rfl⟩ := ih (hf.mono (List.suffix_append _ _).isInfix) x hx q h
    exact absurd ⟨[], t, by simp⟩ (hf x hx)
  | hkeep b r hp _ =>
    intro _ x _ q h
    rw [untag_keep b r hp] at h
    obtain ⟨rfl, _⟩ := List.cons_prefix_cons.mp h
    exact ⟨r, rfl⟩

theorem untag_prefix_letters (q : List Byte) : (∀ x ∈ q, x ∈ omitemptyTag.tail) →
    ∀ r, TagFree r → q <+: untag r → q <+: r := by
  induction q with
  | nil => intro _ r _ _; exact List.nil_prefix
  | cons x q ih =>
    intro hq r hf h
    have hx : x ∈ omitemptyTag.tail := hq x (List.mem_cons_self _ _)
    obtain ⟨t, rfl⟩ := untag_head_letter r hf x hx q h
    have hne : ¬ omitemptyTag <+: x :: t := by
      intro hp
      have h44 : x = 44 := by
        have := (List.cons_prefix_cons.mp (show (44 : Byte) :: omitemptyTag.tail <+: x :: t from hp)).1
        exact this.symm
      subst h44
      revert hx
      decide
    rw [untag_keep x t hne] at h
    have h2 := (List.cons_prefix_cons.mp h).2
    have := ih (fun y hy => hq y (List.mem_cons_of_mem _ hy)) t
      (hf.mono (List.suffix_cons x t).isInfix) h2
    exact List.cons_prefix_cons.mpr ⟨rfl, this⟩

/-- When no occurrence of the tag is directly followed by a byte of `omitempty`,
removing the occurrences cannot join the remaining bytes into a new one. -/
theorem untag_clean (s : List Byte) : TagFree s → ¬ omitemptyTag <:+: untag s := by
  induction s using untag_induction with
  | hnil =>
    intro _ h
    rw [untag_nil] at h
    simp [omitemptyTag] at h
  | hskip r ih =>
    intro hf
    rw [untag_skip]
    exact ih (hf.mono (List.suffix_append _ _).isInfix)
  | hkeep b r hp ih =>
    intro hf h
    have hfr : TagFree r := hf.mono (List.suffix_cons b r).isInfix
    rw [untag_keep b r hp] at h
    rcases List.infix_cons_iff.mp h with h1 | h2
    · have hc := List.cons_prefix_cons.mp (show (44 : Byte) :: omitemptyTag.tail <+: b :: untag r from h1)
      have := untag_prefix_letters omitemptyTag.tail (fun x hx => hx) r hfr hc.2
      exact hp (show (44 : Byte) :: omitemptyTag.tail <+: b :: r from
        List.cons_prefix_cons.mpr ⟨hc.1, this⟩)
    · exact ih hfr h2


/-! ## The scanner -/

theorem IndexByte_none (c : Byte) : ∀ s : List Byte, c ∉ s → IndexByte s c = none := by
  intro s
  induction s with
  | nil => intro _; rfl
  | cons b s ih =>
    intro h
    have hb : b ≠ c := fun e => h (e ▸ List.mem_cons_self _ _)
    simp [IndexByte, hb, ih (fun hm => h (List.mem_cons_of_mem _ hm))]

theorem IndexByte_append (c : Byte) (r : List Byte) : ∀ l : List Byte, c ∉ l →
    IndexByte (l ++ c :: r) c = some l.length := by
  intro l
  induction l with
  | nil => intro _; simp [IndexByte]
  | cons b l ih =>
    intro h
    have hb : b ≠ c := fun e => h (e ▸ List.mem_cons_self _ _)
    simp [IndexByte, hb, ih (fun hm => h (List.mem_cons_of_mem _ hm))]

theorem dropCR_isPrefix (l : List Byte) : dropCR l <+: l := by
  unfold dropCR
  split
  · exact List.dropLast_prefix l
  · exact List.prefix_refl l

theorem dropCR_of_not_CR (l : List Byte) (h : l.getLast? ≠ some CR) : dropCR l = l := by
  simp [dropCR, h]

theorem Scan_nil : Scan [] = .eof := by
  simp [Scan, ScanLines, MaxScanTokenSize]

theorem Scan_long (c : List Byte) (hc : LF ∉ c) (hlen : MaxScanTokenSize ≤ c.length)
    (r : List Byte) : Scan (c ++ r) = .errTooLong := by
  have hw : (c ++ r).take MaxScanTokenSize = c.take MaxScanTokenSize :=
    List.take_append_of_le_length hlen
  have hno : LF ∉ c.take MaxScanTokenSize := fun hm => hc (List.mem_of_mem_take hm)
  have hat : ¬ (c.length + r.length < MaxScanTokenSize) := by omega
  simp [Scan, ScanLines, hw, IndexByte_none LF _ hno, hat]

theorem Scan_line (l r : List Byte) (hl : LF ∉ l) (hlen : l.length < MaxScanTokenSize) :
    Scan (l ++ LF :: r) = .token (dropCR l) r := by
  obtain ⟨k, hk⟩ : ∃ k, MaxScanTokenSize = l.length + (k + 1) :=
    ⟨MaxScanTokenSize - l.length - 1, by omega⟩
  have hw : (l ++ LF :: r).take MaxScanTokenSize = l ++ LF :: r.take k := by
    rw [hk, List.take_append]
    rfl
  have hI := IndexByte_append LF (r.take k) l hl
  unfold Scan ScanLines
  rw [hw, hI]
  simp

theorem Scan_last (l : List Byte) (hl : LF ∉ l) (hne : l ≠ [])
    (hlen : l.length < MaxScanTokenSize) : Scan l = .token (dropCR l) [] := by
  have hw : l.take MaxScanTokenSize = l := List.take_of_length_le (Nat.le_of_lt hlen)
  unfold Scan ScanLines
  rw [hw, IndexByte_none LF l hl]
  simp [hlen, hne]


/-- Induction along the lines of a file: empty, a last line without terminator, or
a terminated line followed by the rest. -/
theorem lines_induction {P : List Byte → Prop} (hnil : P [])
    (hlast : ∀ l, LF ∉ l → l ≠ [] → P l)
    (hline : ∀ l r, LF ∉ l → P r → P (l ++ LF :: r)) : ∀ c, P c := by
  suffices hall : ∀ (n : Nat) (c : List Byte), c.length = n → P c from fun c => hall _ c rfl
  intro n
  induction n using Nat.strong_induction_on with
  | _ n ih =>
    intro c hn
    by_cases hm : LF ∈ c
    · have hsplit : ∀ c : List Byte, LF ∈ c → ∃ l r, LF ∉ l ∧ c = l ++ LF :: r := by
        intro c
        induction c with
        | nil => intro h; simp at h
        | cons b c ihc =>
          intro h
          by_cases hb : b = LF
          · exact ⟨[], c, by simp, by simp [hb]⟩
          · have hc : LF ∈ c := by
              rcases List.mem_cons.mp h with h1 | h1
              · exact absurd h1.symm hb
              · exact h1
            obtain ⟨l, r, hl, rfl⟩ := ihc hc
            exact ⟨b :: l, r, by simp [hl, Ne.symm hb], by simp⟩
      obtain ⟨l, r, hl, rfl⟩ := hsplit c hm
      apply hline l r hl
      exact ih r.length (by subst hn; simp; omega) r rfl
    · by_cases hc : c = []
      · subst hc; exact hnil
      · exact hlast c hm hc

/-- The counter of `scanLoop` is never exhausted: any bound above the length of the
unread input gives the same tokens. -/
theorem scanLoop_fuel : ∀ (n m : Nat) (c : List Byte), c.length < n → c.length < m →
    scanLoop n c = scanLoop m c := by
  intro n
  induction n with
  | zero => intro m c h; omega
  | succ n ih =>
    intro m c hn hm
    obtain ⟨m, rfl⟩ : ∃ k, m = k + 1 := ⟨m - 1, by omega⟩
    induction c using lines_induction with
    | hnil => simp [scanLoop, Scan_nil]
    | hlast l hl hne =>
      by_cases hlen : l.length < MaxScanTokenSize
      · simp only [scanLoop, Scan_last l hl hne hlen]
        cases n <;> cases m <;> simp [scanLoop, Scan_nil]
      · have := Scan_long l hl (by omega) []
        rw [List.append_nil] at this
        simp [scanLoop, this]
    | hline l r hl _ =>
      by_cases hlen : l.length < MaxScanTokenSize
      · simp only [scanLoop, Scan_line l r hl hlen]
        rw [ih m r (by simp at hn; omega) (by simp at hm; omega)]
      · simp [scanLoop, Scan_long l hl (by omega) (LF :: r)]

theorem scanLoop_succ (n : Nat) (c : List Byte) :
    scanLoop (n + 1) c =
      match Scan c with
      | .token text rest => (scanLoop n rest).map (text :: ·)
      | .eof => .ok []
      | .errTooLong => .error "bufio.Scanner: token too long" := rfl

theorem scanTokens_nil : scanTokens [] = .ok [] := by
  simp [scanTokens, scanLoop, Scan_nil]

theorem scanTokens_last (l : List Byte) (hl : LF ∉ l) (hne : l ≠ [])
    (hlen : l.length < MaxScanTokenSize) : scanTokens l = .ok [dropCR l] := by
  obtain ⟨k, hk⟩ : ∃ k, l.length = k + 1 :=
    ⟨l.length - 1, by have := List.length_pos.mpr hne; omega⟩
  simp only [scanTokens, hk, scanLoop, Scan_last l hl hne hlen, Scan_nil]
  rfl

theorem scanTokens_line (l r : List Byte) (hl : LF ∉ l) (hlen : l.length < MaxScanTokenSize) :
    scanTokens (l ++ LF :: r) = (scanTokens r).map (dropCR l :: ·) := by
  unfold scanTokens
  rw [scanLoop_succ, Scan_line l r hl hlen]
  simp only []
  rw [scanLoop_fuel _ (r.length + 1) r (by simp; omega) (by omega)]

theorem scanTokens_long (l r : List Byte) (hl : LF ∉ l) (hlen : MaxScanTokenSize ≤ l.length) :
    scanTokens (l ++ r) = .error "bufio.Scanner: token too long" := by
  simp [scanTokens, scanLoop, Scan_long l hl hlen r]


/-! ## The patcher -/

theorem map_eq_ok {ε α β : Type} (f : α → β) (x : Except ε α) (y : β) :
    x.map f = .ok y ↔ ∃ a, x = .ok a ∧ f a = y := by
  cases x <;> simp [Except.map]

theorem writeLoop_eq (lines : List (List Byte)) : ∀ buf : List Byte,
    writeLoop lines buf = buf ++ (lines.map (fun l => l ++ [LF])).flatten := by
  induction lines with
  | nil => intro buf; simp [writeLoop]
  | cons l ls ih => intro buf; simp [writeLoop, ih]

theorem patchLoop_eq (tokens : List (List Byte)) : ∀ lines : List (List Byte),
    patchLoop tokens lines = lines ++ tokens.map untag := by
  induction tokens with
  | nil => intro lines; simp [patchLoop]
  | cons t ts ih => intro lines; simp [patchLoop, ih]

/-- The bytes `writeLines` produces for the patched lines. -/
theorem written_eq (tokens : List (List Byte)) :
    writeLoop (patchLoop tokens []) [] = (tokens.map (fun l => untag l ++ [LF])).flatten := by
  rw [writeLoop_eq, patchLoop_eq]
  simp [List.map_map, Function.comp_def]

theorem FS.set_set (fs : FS) (p : Path) (a b : Node) : (fs.set p a).set p b = fs.set p b := by
  simp only [FS.set]
  congr 1
  funext q
  by_cases h : q = p <;> simp [h]

theorem FS.set_same (fs : FS) (p : Path) (a : Node) (h : fs.node p = some a) : fs.set p a = fs := by
  cases fs with
  | mk u nd =>
    simp only [FS.set]
    congr 1
    funext q
    by_cases hq : q = p
    · subst hq; simpa using h.symm
    · simp [hq]

/-- On a file whose lines the scanner accepts, the patcher succeeds and replaces the
content by the written lines; nothing else changes. -/
theorem patch_ok (filePath : Path) (fs : FS) (perm : Nat) (content : List Byte)
    (tokens : List (List Byte)) (hfile : fs.node filePath = some (.file perm content))
    (hread : scanTokens content = .ok tokens) :
    RemoveOmitemptyFromFile filePath fs
      = .ok (fs.set filePath (.file perm (tokens.map (fun l => untag l ++ [LF])).flatten)) := by
  simp only [RemoveOmitemptyFromFile, hfile, hread, writeLines, FS.openTrunc, FS.append]
  have hn : (fs.set filePath (.file perm [])).node filePath = some (.file perm []) := by
    simp [FS.set]
  simp only [hn, FS.set_set, written_eq, List.nil_append]

/-- A successful run of the patcher read a file and scanned it into tokens. -/
theorem patch_ok_inv (filePath : Path) (fs fs1 : FS)
    (hok : RemoveOmitemptyFromFile filePath fs = .ok fs1) :
    ∃ perm content tokens, fs.node filePath = some (.file perm content) ∧
      scanTokens content = .ok tokens := by
  unfold RemoveOmitemptyFromFile at hok
  cases hn : fs.node filePath with
  | none => simp [hn] at hok
  | some nd =>
    cases nd with
    | dir m => simp [hn] at hok
    | file m c =>
      cases hs : scanTokens c with
      | error e => simp [hn, hs] at hok
      | ok ts => exact ⟨m, c, ts, rfl, hs⟩

/-- What the scanner returns: lines without line feed, below the buffer limit, each
a piece of the input. -/
theorem tokens_spec (c : List Byte) : ∀ tokens, scanTokens c = .ok tokens →
    ∀ l ∈ tokens, LF ∉ l ∧ l.length < MaxScanTokenSize ∧ l <:+: c := by
  induction c using lines_induction with
  | hnil =>
    intro tokens h l hl
    rw [scanTokens_nil] at h
    cases h
    simp at hl
  | hlast c hc hne =>
    intro tokens h l hl
    by_cases hlen : c.length < MaxScanTokenSize
    · rw [scanTokens_last c hc hne hlen] at h
      cases h
      simp at hl
      subst hl
      have hp := dropCR_isPrefix c
      exact ⟨fun hm => hc (hp.subset hm), lt_of_le_of_lt hp.length_le hlen, hp.isInfix⟩
    · have := scanTokens_long c [] hc (by omega)
      rw [List.append_nil] at this
      rw [this] at h
      cases h
  | hline c r hc ih =>
    intro tokens h l hl
    by_cases hlen : c.length < MaxScanTokenSize
    · rw [scanTokens_line c r hc hlen, map_eq_ok] at h
      obtain ⟨ts, hts, rfl⟩ := h
      rcases List.mem_cons.mp hl with rfl | hl
      · have hp := dropCR_isPrefix c
        exact ⟨fun hm => hc (hp.subset hm), lt_of_le_of_lt hp.length_le hlen,
          hp.isInfix.trans (List.prefix_append _ _).isInfix⟩
      · obtain ⟨h1, h2, h3⟩ := ih ts hts l hl
        exact ⟨h1, h2, h3.trans ⟨c ++ [LF], [], by simp⟩⟩
    · rw [scanTokens_long c (LF :: r) hc (by omega)] at h
      cases h

/-- Scanning what `writeLines` wrote gives the lines back, less a trailing carriage
return each. -/
theorem scan_written (lines : List (List Byte))
    (h : ∀ l ∈ lines, LF ∉ l ∧ l.length < MaxScanTokenSize) :
    scanTokens (lines.map (fun l => l ++ [LF])).flatten = .ok (lines.map dropCR) := by
  induction lines with
  | nil => simpa using scanTokens_nil
  | cons l ls ih =>
    have hl := h l (List.mem_cons_self _ _)
    have e : ((l :: ls).map (fun l => l ++ [LF])).flatten
        = l ++ LF :: (ls.map (fun l => l ++ [LF])).flatten := by simp
    rw [e, scanTokens_line l _ hl.1 hl.2, ih (fun x hx => h x (List.mem_cons_of_mem _ hx))]
    rfl

/-- A file that is empty or ends in a line feed, and has no carriage return before
a line feed, is the concatenation of its scanned lines, each with a line feed. -/
theorem written_of_scanned (c : List Byte) : ∀ tokens, scanTokens c = .ok tokens →
    (c = [] ∨ c.getLast? = some LF) → ¬ [CR, LF] <:+: c →
    (tokens.map (fun l => l ++ [LF])).flatten = c := by
  induction c using lines_induction with
  | hnil =>
    intro tokens h _ _
    rw [scanTokens_nil] at h
    cases h
    rfl
  | hlast c hc hne =>
    intro tokens _ hend _
    rcases hend with h0 | h1
    · exact absurd h0 hne
    · obtain ⟨ys, rfl⟩ := List.getLast?_eq_some_iff.mp h1
      exact absurd (by simp) hc
  | hline c r hc ih =>
    intro tokens h hend hcr
    by_cases hlen : c.length < MaxScanTokenSize
    · rw [scanTokens_line c r hc hlen, map_eq_ok] at h
      obtain ⟨ts, hts, rfl⟩ := h
      have hr : r = [] ∨ r.getLast? = some LF := by
        rcases hend with h0 | h1
        · simp at h0
        · cases r with
          | nil => exact Or.inl rfl
          | cons x r =>
            right
            rw [List.getLast?_append] at h1
            simpa using h1
      have hcr2 : ¬ [CR, LF] <:+: r := fun hi => hcr (hi.trans ⟨c ++ [LF], [], by simp⟩)
      have hd : dropCR c = c := by
        apply dropCR_of_not_CR
        intro hl
        obtain ⟨ys, rfl⟩ := List.getLast?_eq_some_iff.mp hl
        exact hcr ⟨ys, r, by simp⟩
      simp [hd, ih ts hts hr hcr2]
    · rw [scanTokens_long c (LF :: r) hc (by omega)] at h
      cases h


theorem infix_line_or_rest (t l r : List Byte) (ht : LF ∉ t) (h : t <:+: l ++ LF :: r) :
    t <:+: l ∨ t <:+: r := by
  obtain ⟨a, b, hab⟩ := h
  rcases List.append_eq_append_iff.mp hab with ⟨a', h1, _⟩ | ⟨c', h1, h2⟩
  · exact Or.inl ⟨a, a', h1.symm⟩
  · cases c' with
    | nil => exact Or.inl ⟨a, [], by simpa using h1⟩
    | cons x c'' =>
      simp only [List.cons_append, List.cons.injEq] at h2
      obtain ⟨rfl, h2⟩ := h2
      rcases List.append_eq_append_iff.mp h1 with ⟨a', _, h4⟩ | ⟨c3, h3, h4⟩
      · exact absurd (by rw [h4]; simp) ht
      · cases c3 with
        | nil => exact absurd (by rw [← List.nil_append t, ← h4]; simp) ht
        | cons y c4 =>
          simp only [List.cons_append, List.cons.injEq] at h4
          exact Or.inr ⟨c4, b, by rw [h2, h4.2]⟩

theorem infix_written (t : List Byte) (ht : LF ∉ t) (hne : t ≠ []) :
    ∀ lines : List (List Byte), t <:+: (lines.map (fun l => l ++ [LF])).flatten →
      ∃ l ∈ lines, t <:+: l := by
  intro lines
  induction lines with
  | nil =>
    intro h
    simp at h
    exact absurd h hne
  | cons l ls ih =>
    intro h
    have e : ((l :: ls).map (fun l => l ++ [LF])).flatten
        = l ++ LF :: (ls.map (fun l => l ++ [LF])).flatten := by simp
    rw [e] at h
    rcases infix_line_or_rest t l _ ht h with h1 | h2
    · exact ⟨l, List.mem_cons_self _ _, h1⟩
    · obtain ⟨x, hx, hi⟩ := ih h2
      exact ⟨x, List.mem_cons_of_mem _ hx, hi⟩

theorem line_infix_written (l : List Byte) (lines : List (List Byte)) (h : l ∈ lines) :
    l ++ [LF] <:+: (lines.map (fun l => l ++ [LF])).flatten :=
  List.infix_of_mem_flatten (List.mem_map_of_mem _ h)

theorem count_written (lines : List (List Byte)) (h : ∀ l ∈ lines, LF ∉ l) :
    (lines.map (fun l => l ++ [LF])).flatten.count LF = lines.length := by
  induction lines with
  | nil => rfl
  | cons l ls ih =>
    have h0 : l.count LF = 0 := List.count_eq_zero.mpr (h l (List.mem_cons_self _ _))
    simp [h0, ih (fun x hx => h x (List.mem_cons_of_mem _ hx))]

/-! ## The claims on the patcher -/

/-- C1: when `RemoveOmitemptyFromFile` reads a file as the lines `l_1..l_n`, it
succeeds and the rewritten file is, in the same order, each
`strings.ReplaceAll(l_i, ",omitempty", "")` followed by a line feed: exactly `n`
lines; a line without the token is written back as it was read; no other path of
the file system changes. -/
theorem RemoveOmitemptyFromFile_rewrites_lines (filePath : Path) (fs : FS) (perm : Nat)
    (content : List Byte) (lines : List (List Byte))
    (hfile : fs.node filePath = some (.file perm content))
    (hread : scanTokens content = .ok lines) :
    ∃ fs', RemoveOmitemptyFromFile filePath fs = .ok fs' ∧
      fs'.node filePath = some (.file perm
        (lines.map (fun l => ReplaceAll l omitemptyTag [] ++ [LF])).flatten) ∧
      (lines.map (fun l => ReplaceAll l omitemptyTag [] ++ [LF])).flatten.count LF
        = lines.length ∧
      (∀ l ∈ lines, ¬ omitemptyTag <:+: l → ReplaceAll l omitemptyTag [] = l) ∧
      (∀ q, q ≠ filePath → fs'.node q = fs.node q) := by
  refine ⟨_, patch_ok filePath fs perm content lines hfile hread, ?_, ?_, ?_, ?_⟩
  · simp [FS.set, untag]
  · have := count_written (lines.map untag) (by
      intro l hl
      obtain ⟨x, hx, rfl⟩ := List.mem_map.mp hl
      exact untag_not_mem x LF (tokens_spec content lines hread x hx).1)
    simpa [List.map_map, Function.comp_def, untag] using this
  · intro l _ hl
    exact untag_id l hl
  · intro q hq
    simp [FS.set, hq]

/-- C2, amended: when in the file no occurrence of the token is directly followed
by one of the bytes of `omitempty`, then after `RemoveOmitemptyFromFile` succeeds
the rewritten file contains no occurrence of the token, and so does none of its
lines. -/
theorem RemoveOmitemptyFromFile_removes_tokens (filePath : Path) (fs fs' : FS) (perm : Nat)
    (content : List Byte) (hfile : fs.node filePath = some (.file perm content))
    (hfree : TagFree content)
    (hok : RemoveOmitemptyFromFile filePath fs = .ok fs') :
    ∃ out, fs'.content filePath = some out ∧ ¬ omitemptyTag <:+: out ∧
      ∀ lines, scanTokens out = .ok lines → ∀ l ∈ lines, ¬ omitemptyTag <:+: l := by
  obtain ⟨perm', content', tokens, hfile', hread⟩ := patch_ok_inv filePath fs fs' hok
  rw [hfile] at hfile'
  cases hfile'
  rw [patch_ok filePath fs perm content tokens hfile hread] at hok
  cases hok
  have hout : ¬ omitemptyTag <:+: (tokens.map (fun l => untag l ++ [LF])).flatten := by
    intro hi
    have hi' : omitemptyTag <:+: ((tokens.map untag).map (fun l => l ++ [LF])).flatten := by
      simpa [List.map_map, Function.comp_def] using hi
    obtain ⟨l, hl, hil⟩ := infix_written omitemptyTag (by decide) (by decide) _ hi'
    obtain ⟨x, hx, rfl⟩ := List.mem_map.mp hl
    exact untag_clean x (hfree.mono (tokens_spec content tokens hread x hx).2.2) hil
  refine ⟨_, by simp [FS.content, FS.set], hout, ?_⟩
  intro lines hlines l hl hi
  exact hout (hi.trans (tokens_spec _ lines hlines l hl).2.2)

/-- C3, amended: a file without the token that is empty or ends in a line feed, and
in which no line feed is preceded by a carriage return, is left exactly as it was
by a successful `RemoveOmitemptyFromFile`. -/
theorem RemoveOmitemptyFromFile_keeps_clean_file (filePath : Path) (fs fs' : FS) (perm : Nat)
    (content : List Byte) (hfile : fs.node filePath = some (.file perm content))
    (hnotag : ¬ omitemptyTag <:+: content)
    (hend : content = [] ∨ content.getLast? = some LF)
    (hcr : ¬ [CR, LF] <:+: content)
    (hok : RemoveOmitemptyFromFile filePath fs = .ok fs') : fs' = fs := by
  obtain ⟨perm', content', tokens, hfile', hread⟩ := patch_ok_inv filePath fs fs' hok
  rw [hfile] at hfile'
  cases hfile'
  rw [patch_ok filePath fs perm content tokens hfile hread] at hok
  cases hok
  have hmap : tokens.map (fun l => untag l ++ [LF]) = tokens.map (fun l => l ++ [LF]) := by
    apply List.map_congr_left
    intro l hl
    rw [untag_id l
      (fun hi => hnotag (hi.trans (tokens_spec content tokens hread l hl).2.2))]
  rw [hmap, written_of_scanned content tokens hread hend hcr]
  exact FS.set_same fs filePath _ hfile

/-- C4, amended: when the file `RemoveOmitemptyFromFile` has written contains no
token and no carriage return before a line feed, a second application succeeds and
leaves every byte as the first one wrote it. -/
theorem RemoveOmitemptyFromFile_twice (filePath : Path) (fs fs1 : FS) (out : List Byte)
    (hok : RemoveOmitemptyFromFile filePath fs = .ok fs1)
    (hout : fs1.content filePath = some out)
    (hnotag : ¬ omitemptyTag <:+: out)
    (hcr : ¬ [CR, LF] <:+: out) :
    RemoveOmitemptyFromFile filePath fs1 = .ok fs1 := by
  obtain ⟨perm, content, tokens, hfile, hread⟩ := patch_ok_inv filePath fs fs1 hok
  rw [patch_ok filePath fs perm content tokens hfile hread] at hok
  cases hok
  have hnode : (fs.set filePath (.file perm
      (tokens.map (fun l => untag l ++ [LF])).flatten)).node filePath
      = some (.file perm (tokens.map (fun l => untag l ++ [LF])).flatten) := by
    simp [FS.set]
  have hout' : out = ((tokens.map untag).map (fun l => l ++ [LF])).flatten := by
    simp [FS.content, hnode] at hout
    rw [← hout]
    simp [List.map_map, Function.comp_def]
  have hwr : (tokens.map (fun l => untag l ++ [LF])).flatten
      = ((tokens.map untag).map (fun l => l ++ [LF])).flatten := by
    simp [List.map_map, Function.comp_def]
  have hspec : ∀ l ∈ tokens.map untag, LF ∉ l ∧ l.length < MaxScanTokenSize := by
    intro l hl
    obtain ⟨x, hx, rfl⟩ := List.mem_map.mp hl
    have hs := tokens_spec content tokens hread x hx
    exact ⟨untag_not_mem x LF hs.1, lt_of_le_of_lt (untag_length_le x) hs.2.1⟩
  have hscan := scan_written (tokens.map untag) hspec
  have hsame : ∀ l ∈ tokens.map untag, untag (dropCR l) ++ [LF] = l ++ [LF] := by
    intro l hl
    have hin : l ++ [LF] <:+: out := hout' ▸ line_infix_written l _ hl
    have hd : dropCR l = l := by
      apply dropCR_of_not_CR
      intro hlast
      obtain ⟨ys, rfl⟩ := List.getLast?_eq_some_iff.mp hlast
      exact hcr (List.IsInfix.trans ⟨ys, [], by simp⟩ hin)
    rw [hd, untag_id l
      (fun hi => hnotag ((hi.trans (List.prefix_append l [LF]).isInfix).trans hin))]
  rw [hwr] at hnode ⊢
  rw [patch_ok filePath _ perm _ _ hnode hscan]
  have hfin : ((tokens.map untag).map dropCR).map (fun l => untag l ++ [LF])
      = (tokens.map untag).map (fun l => l ++ [LF]) := by
    rw [List.map_map]
    apply List.map_congr_left
    intro l hl
    exact hsame l hl
  rw [hfin, FS.set_set]


/-! ## The claims on the patcher at concrete files -/

/-- C1 at the end-to-end scenario: the tagged line of the generated struct loses
its tag, the other lines are written back unchanged. -/
theorem RemoveOmitemptyFromFile_rewrites_lines_witness :
    ∃ fs', RemoveOmitemptyFromFile userPb (diskWith taggedSource) = .ok fs' ∧
      fs'.content userPb = some untaggedSource := by
  obtain ⟨fs', h1, h2, _⟩ := RemoveOmitemptyFromFile_rewrites_lines userPb
    (diskWith taggedSource) 0o644 taggedSource
    [bytes "type T struct \x7b", bytes "\tField string `json:\"field,omitempty\"`", bytes "\x7d"]
    (by rfl) (by rfl)
  refine ⟨fs', h1, ?_⟩
  rw [FS.content, h2]
  decide

/-- C2 as stated fails: removing the occurrence inside `,omit,omitemptyempty`
leaves the line `,omitempty`. -/
theorem RemoveOmitemptyFromFile_leaves_token :
    ∃ fs', RemoveOmitemptyFromFile userPb (diskWith (bytes ",omit,omitemptyempty\n")) = .ok fs' ∧
      fs'.content userPb = some (bytes ",omitempty\n") ∧
      omitemptyTag <:+: bytes ",omitempty\n" := by
  refine ⟨_, patch_ok userPb _ 0o644 _ [bytes ",omit,omitemptyempty"] (by rfl) (by rfl), ?_, ?_⟩
  · decide
  · exact ⟨[], [LF], by decide⟩

/-- C2, amended, at the generated struct: its tag is followed by a quote, and the
patched file has no tag. -/
theorem RemoveOmitemptyFromFile_removes_tokens_witness :
    ∃ out, FS.content ((diskWith taggedSource).set userPb (.file 0o644 untaggedSource)) userPb
        = some out ∧ ¬ omitemptyTag <:+: out ∧
      ∀ lines, scanTokens out = .ok lines → ∀ l ∈ lines, ¬ omitemptyTag <:+: l :=
  RemoveOmitemptyFromFile_removes_tokens userPb (diskWith taggedSource) _ 0o644 taggedSource
    (by rfl) (by unfold TagFree; decide)
    (patch_ok userPb _ 0o644 _
      [bytes "type T struct \x7b", bytes "\tField string `json:\"field,omitempty\"`", bytes "\x7d"]
      (by rfl) (by rfl))

/-- C3 as stated fails: a file without final line feed gains one, and a carriage
return before a line feed is dropped, though neither file contains the token. -/
theorem RemoveOmitemptyFromFile_changes_clean_file :
    (¬ omitemptyTag <:+: bytes "a" ∧
      ∃ fs', RemoveOmitemptyFromFile userPb (diskWith (bytes "a")) = .ok fs' ∧
        fs'.content userPb = some (bytes "a\n") ∧ bytes "a\n" ≠ bytes "a") ∧
    (¬ omitemptyTag <:+: bytes "a\r\n" ∧
      ∃ fs', RemoveOmitemptyFromFile userPb (diskWith (bytes "a\r\n")) = .ok fs' ∧
        fs'.content userPb = some (bytes "a\n") ∧ bytes "a\n" ≠ bytes "a\r\n") := by
  refine ⟨⟨by decide, _, patch_ok userPb _ 0o644 _ [bytes "a"] (by rfl) (by rfl), ?_, ?_⟩,
    ⟨by decide, _, patch_ok userPb _ 0o644 _ [bytes "a"] (by rfl) (by rfl), ?_, ?_⟩⟩ <;> decide

/-- C3, amended, at the generated struct without tag: the patcher returns the file
system it was given. -/
theorem RemoveOmitemptyFromFile_keeps_clean_file_witness :
    RemoveOmitemptyFromFile userPb (diskWith untaggedSource) = .ok (diskWith untaggedSource) := by
  have hok := patch_ok userPb (diskWith untaggedSource) 0o644 untaggedSource
    [bytes "type T struct \x7b", bytes "\tField string `json:\"field\"`", bytes "\x7d"]
    (by rfl) (by rfl)
  have hsame := RemoveOmitemptyFromFile_keeps_clean_file userPb (diskWith untaggedSource) _
    0o644 untaggedSource (by rfl) (by decide) (by decide) (by decide) hok
  rw [hok, hsame]

/-- C4 as stated fails: a second application removes the token that the first one
joined, and drops a carriage return that the first one left before the line feed. -/
theorem RemoveOmitemptyFromFile_not_idempotent :
    (∃ fs1 fs2, RemoveOmitemptyFromFile userPb (diskWith (bytes ",omit,omitemptyempty\n")) = .ok fs1 ∧
        RemoveOmitemptyFromFile userPb fs1 = .ok fs2 ∧
        fs1.content userPb = some (bytes ",omitempty\n") ∧
        fs2.content userPb = some (bytes "\n")) ∧
    (∃ fs1 fs2, RemoveOmitemptyFromFile userPb (diskWith (bytes "a\r\r\n")) = .ok fs1 ∧
        RemoveOmitemptyFromFile userPb fs1 = .ok fs2 ∧
        fs1.content userPb = some (bytes "a\r\n") ∧
        fs2.content userPb = some (bytes "a\n")) := by
  constructor
  · refine ⟨_, _, patch_ok userPb _ 0o644 _ [bytes ",omit,omitemptyempty"] (by rfl) (by rfl),
      patch_ok userPb _ 0o644 (bytes ",omitempty\n") [bytes ",omitempty"] (by rfl) (by rfl),
      ?_, ?_⟩ <;> decide
  · refine ⟨_, _, patch_ok userPb _ 0o644 _ [bytes "a\r"] (by rfl) (by rfl),
      patch_ok userPb _ 0o644 (bytes "a\r\n") [bytes "a"] (by rfl) (by rfl),
      ?_, ?_⟩ <;> decide

/-- C4, amended, at the generated struct: the second application returns the file
system the first one left. -/
theorem RemoveOmitemptyFromFile_twice_witness :
    ∃ fs1, RemoveOmitemptyFromFile userPb (diskWith taggedSource) = .ok fs1 ∧
      fs1.content userPb = some untaggedSource ∧
      RemoveOmitemptyFromFile userPb fs1 = .ok fs1 := by
  have h1 := patch_ok userPb (diskWith taggedSource) 0o644 taggedSource
    [bytes "type T struct \x7b", bytes "\tField string `json:\"field,omitempty\"`", bytes "\x7d"]
    (by rfl) (by rfl)
  have h2 : FS.content ((diskWith taggedSource).set userPb (.file 0o644
      ([bytes "type T struct \x7b", bytes "\tField string `json:\"field,omitempty\"`",
        bytes "\x7d"].map (fun l => untag l ++ [LF])).flatten)) userPb = some untaggedSource := by
    decide
  exact ⟨_, h1, h2, RemoveOmitemptyFromFile_twice userPb _ _ untaggedSource h1 h2
    (by decide) (by decide)⟩


/-! ## The download URL -/

theorem protocURL_eq (goos goarch : String) :
    protocURL goos goarch =
      "https://github.com/protocolbuffers/protobuf/releases/download/v26.1/protoc-26.1-"
        ++ (if goos = "windows" then "win64" else goos ++ "-" ++ getProtocArch archMap goarch)
        ++ ".zip" := by
  unfold protocURL
  simp only [String.append_assoc]
  rfl

theorem getProtocArch_eq (a : String) :
    getProtocArch archMap a =
      if a = "amd64" then "x86_64" else if a = "386" then "x86"
      else if a = "arm64" then "aarch64" else a := by
  unfold getProtocArch archMap
  by_cases h1 : a = "amd64"
  · subst h1; rfl
  · by_cases h2 : a = "386"
    · subst h2; rfl
    · by_cases h3 : a = "arm64"
      · subst h3; rfl
      · have b1 : (a == "amd64") = false := beq_eq_false_iff_ne.mpr h1
        have b2 : (a == "386") = false := beq_eq_false_iff_ne.mpr h2
        have b3 : (a == "arm64") = false := beq_eq_false_iff_ne.mpr h3
        simp [List.lookup, b1, b2, b3, h1, h2, h3]

/-- Whatever happens later, `installProtoc` records exactly one action of its own:
the request for the URL. -/
theorem installProtoc_trace (h : Host) (installDir : Path) (w : World) :
    (installProtoc h installDir w).2.trace
      = w.trace ++ [.httpGet (protocURL h.goos h.goarch)] := by
  unfold installProtoc
  simp only []
  split
  · rfl
  · split <;> rfl

/-- C5, amended: on every operating system but `windows` the URL `installProtoc`
requests is `.../v26.1/protoc-26.1-<os>-<arch>.zip`, where `<arch>` is the
translation of the architecture when it is in the table (amd64 to x86_64, 386 to
x86, arm64 to aarch64) and the architecture itself otherwise; on `windows` it is
`.../v26.1/protoc-26.1-win64.zip` whatever the architecture. -/
theorem installProtoc_url (h : Host) (installDir : Path) (w : World) :
    (installProtoc h installDir w).2.trace = w.trace ++ [.httpGet
      ("https://github.com/protocolbuffers/protobuf/releases/download/v26.1/protoc-26.1-"
        ++ (if h.goos = "windows" then "win64"
            else h.goos ++ "-" ++ getProtocArch archMap h.goarch)
        ++ ".zip")] ∧
    getProtocArch archMap h.goarch =
      (if h.goarch = "amd64" then "x86_64" else if h.goarch = "386" then "x86"
       else if h.goarch = "arm64" then "aarch64" else h.goarch) := by
  rw [installProtoc_trace, protocURL_eq]
  exact ⟨rfl, getProtocArch_eq h.goarch⟩

/-- C5 as stated fails on `windows`: the URL names `win64`, not the operating system
and the translated architecture. -/
theorem installProtoc_url_windows :
    protocURL "windows" "amd64"
      = "https://github.com/protocolbuffers/protobuf/releases/download/v26.1/protoc-26.1-win64.zip" ∧
    protocURL "windows" "amd64"
      ≠ "https://github.com/protocolbuffers/protobuf/releases/download/v26.1/protoc-26.1-"
        ++ "windows" ++ "-" ++ getProtocArch archMap "amd64" ++ ".zip" := by
  constructor <;> decide

/-! ## UsersDB2Pb -/

theorem convertLoop_eq : ∀ (users : List (Ptr User)) (result : List (Ptr UserInfo)),
    (∀ p ∈ users, p ≠ none) →
    convertLoop users result = .ok (result ++ users.map (fun p =>
      p.map (fun u => { UserID := u.UserID, Nickname := u.Nickname }))) := by
  intro users
  induction users with
  | nil => intro result _; simp [convertLoop]
  | cons p ps ih =>
    intro result h
    cases p with
    | none => exact absurd rfl (h none (List.mem_cons_self _ _))
    | some u =>
      simp [convertLoop, ih _ (fun q hq => h q (List.mem_cons_of_mem _ hq))]

/-- C10: for every list of non-nil users, the nil list included, `UsersDB2Pb`
returns without panic a non-nil list of the same length whose i-th element is a
`UserInfo` with the `UserID` and `Nickname` of the i-th user. -/
theorem UsersDB2Pb_spec (users : Slice (Ptr User)) (hnonnil : ∀ p ∈ users.elems, p ≠ none) :
    ∃ out : List (Ptr UserInfo), UsersDB2Pb users = .ok (some out) ∧
      out.length = users.elems.length ∧
      ∀ i, i < users.elems.length → ∃ u pb, users.elems[i]? = some (some u) ∧
        out[i]? = some (some pb) ∧ pb.UserID = u.UserID ∧ pb.Nickname = u.Nickname := by
  refine ⟨_, by rw [UsersDB2Pb, convertLoop_eq _ _ hnonnil]; rfl, by simp, ?_⟩
  intro i hi
  have hget : users.elems[i]? = some (users.elems[i]) := List.getElem?_eq_getElem hi
  cases hu : users.elems[i] with
  | none => exact absurd hu (hnonnil _ (List.getElem_mem hi))
  | some u =>
    refine ⟨u, { UserID := u.UserID, Nickname := u.Nickname }, by rw [hget, hu], ?_, rfl, rfl⟩
    simp [List.getElem?_map, hget, hu]

/-- C10 at a list of two users. -/
theorem UsersDB2Pb_spec_witness :
    ∃ out : List (Ptr UserInfo),
      UsersDB2Pb (some [some ⟨"u1", "Ann"⟩, some ⟨"u2", "Bo"⟩]) = .ok (some out) ∧
      out.length = 2 ∧
      ∀ i, i < 2 → ∃ u pb,
        (Slice.elems (some [some (User.mk "u1" "Ann"), some (User.mk "u2" "Bo")]))[i]?
          = some (some u) ∧
        out[i]? = some (some pb) ∧ pb.UserID = u.UserID ∧ pb.Nickname = u.Nickname :=
  UsersDB2Pb_spec (some [some ⟨"u1", "Ann"⟩, some ⟨"u2", "Bo"⟩]) (by decide)


/-! ## ensureToolsInstalled -/

/-- The trace of the loop over the tools: the installs of the tools not found, in
the order of the loop, up to the first failure. -/
theorem installLoop_trace (h : Host) (dir : Path) : ∀ (ts : List (String × String)) (w : World),
    ∃ k, (installLoop h dir ts w).2.trace = w.trace ++
      ((ts.filter (fun tp => !h.lookPath (dir ++ [tp.1]))).map
        (fun tp => Event.run "go" ["install", tp.2])).take k := by
  intro ts
  induction ts with
  | nil => intro w; exact ⟨0, by simp [installLoop]⟩
  | cons tp rest ih =>
    intro w
    obtain ⟨tool, path⟩ := tp
    by_cases hf : h.lookPath (dir ++ [tool]) = true
    · obtain ⟨k, hk⟩ := ih w
      exact ⟨k, by simp [installLoop, hf, hk]⟩
    · simp only [Bool.not_eq_true] at hf
      cases hr : (h.run "go" ["install", path] w.fs).1 with
      | some err =>
        exact ⟨1, by simp [installLoop, hf, World.run, hr]⟩
      | none =>
        obtain ⟨k, hk⟩ := ih (World.mk (h.run "go" ["install", path] w.fs).2
          (w.trace ++ [.run "go" ["install", path]]))
        exact ⟨k + 1, by simp [installLoop, hf, World.run, hr, hk]⟩

theorem installLoop_ok (h : Host) (dir : Path)
    (hsucc : ∀ path fs, (h.run "go" ["install", path] fs).1 = none) :
    ∀ (ts : List (String × String)) (w : World),
      (installLoop h dir ts w).1 = none ∧
      (installLoop h dir ts w).2.trace = w.trace ++
        (ts.filter (fun tp => !h.lookPath (dir ++ [tp.1]))).map
          (fun tp => Event.run "go" ["install", tp.2]) := by
  intro ts
  induction ts with
  | nil => intro w; simp [installLoop]
  | cons tp rest ih =>
    intro w
    obtain ⟨tool, path⟩ := tp
    by_cases hf : h.lookPath (dir ++ [tool]) = true
    · simpa [installLoop, hf] using ih w
    · simp only [Bool.not_eq_true] at hf
      have := ih (World.mk (h.run "go" ["install", path] w.fs).2
        (w.trace ++ [.run "go" ["install", path]]))
      simpa [installLoop, hf, World.run, hsucc path w.fs] using this

/-- The shape of the trace of `ensureToolsInstalled`. -/
theorem ensureToolsInstalled_trace (h : Host) (w : World) :
    ∃ k extra, (ensureToolsInstalled h w).2.trace
        = w.trace ++ [.setenv "GOBIN" (targetDir h).render] ++
          (((h.mapOrder tools).filter (fun tp => !h.lookPath (targetDir h ++ [tp.1]))).map
            (fun tp => Event.run "go" ["install", tp.2])).take k ++ extra ∧
      (extra = [] ∨ extra = [.httpGet (protocURL h.goos h.goarch)]) ∧
      ((∀ path fs, (h.run "go" ["install", path] fs).1 = none) →
        (((h.mapOrder tools).filter (fun tp => !h.lookPath (targetDir h ++ [tp.1]))).map
            (fun tp => Event.run "go" ["install", tp.2])).take k
          = ((h.mapOrder tools).filter (fun tp => !h.lookPath (targetDir h ++ [tp.1]))).map
            (fun tp => Event.run "go" ["install", tp.2]) ∧
        extra = if h.lookPath (targetDir h ++ ["protoc"]) then []
                else [.httpGet (protocURL h.goos h.goarch)]) := by
  obtain ⟨k, hk⟩ := installLoop_trace h (targetDir h) (h.mapOrder tools)
    (w.log (.setenv "GOBIN" (targetDir h).render))
  have hfull := fun hs => installLoop_ok h (targetDir h) hs (h.mapOrder tools)
    (w.log (.setenv "GOBIN" (targetDir h).render))
  unfold ensureToolsInstalled
  simp only []
  cases hres : installLoop h (targetDir h) (h.mapOrder tools)
      (w.log (.setenv "GOBIN" (targetDir h).render)) with
  | mk e w2 =>
    rw [hres] at hk
    simp only [World.log] at hk
    have hfull' : (∀ path fs, (h.run "go" ["install", path] fs).1 = none) →
        e = none ∧ (((h.mapOrder tools).filter
          (fun tp => !h.lookPath (targetDir h ++ [tp.1]))).map
            (fun tp => Event.run "go" ["install", tp.2])).take k
          = ((h.mapOrder tools).filter (fun tp => !h.lookPath (targetDir h ++ [tp.1]))).map
            (fun tp => Event.run "go" ["install", tp.2]) := by
      intro hs
      have := hfull hs
      rw [hres] at this
      refine ⟨this.1, ?_⟩
      have h2 := this.2
      simp only [World.log] at h2
      rw [hk] at h2
      exact List.append_cancel_left h2
    cases e with
    | some err =>
      refine ⟨k, [], by simpa using hk, Or.inl rfl, ?_⟩
      intro hs
      exact absurd (hfull' hs).1 (by simp)
    | none =>
      by_cases hp : h.lookPath (targetDir h ++ ["protoc"]) = true
      · refine ⟨k, [], by simpa [hp] using hk, Or.inl rfl, ?_⟩
        intro hs
        exact ⟨(hfull' hs).2, by simp [hp]⟩
      · refine ⟨k, [.httpGet (protocURL h.goos h.goarch)], ?_, Or.inr rfl, ?_⟩
        · have hp' : h.lookPath (targetDir h ++ ["protoc"]) = false := by simpa using hp
          simp only [hp', Bool.false_eq_true, if_false]
          rw [installProtoc_trace, hk]
        · intro hs
          exact ⟨(hfull' hs).2, by simp [hp]⟩

/-- Among the installs of the missing tools, the one of a tool occurs once if the
tool is missing and not at all if it is found. -/
theorem count_install (look : Path → Bool) (dir : Path) (order : List (String × String))
    (hperm : order.Perm tools) (tp : String × String) (htp : tp ∈ tools) :
    ((order.filter (fun tp => !look (dir ++ [tp.1]))).map
        (fun tp => Event.run "go" ["install", tp.2])).count (.run "go" ["install", tp.2])
      = if look (dir ++ [tp.1]) then 0 else 1 := by
  rw [((hperm.filter _).map _).count_eq]
  simp only [tools, List.mem_cons, List.mem_singleton, List.not_mem_nil, or_false] at htp
  rcases htp with rfl | rfl
  · cases h1 : look (dir ++ ["protoc-gen-go"]) <;>
      cases h2 : look (dir ++ ["protoc-gen-go-grpc"]) <;>
      simp [tools, List.filter, h1, h2]
  · cases h1 : look (dir ++ ["protoc-gen-go"]) <;>
      cases h2 : look (dir ++ ["protoc-gen-go-grpc"]) <;>
      simp [tools, List.filter, h1, h2]


/-- C9, amended: in every state of the install path and every order of the loop,
`ensureToolsInstalled` never runs the install action for a tool that is found and
at most once for a tool that is not; and when no install action fails, it runs it
exactly once for each tool that is not found, and requests the protoc archive (the
first action of `installProtoc`) if and only if `protoc` is not found. -/
theorem ensureToolsInstalled_installs (h : Host) (fs : FS)
    (hperm : (h.mapOrder tools).Perm tools) :
    (∀ tp ∈ tools,
      (ensureToolsInstalled h (World.start fs)).2.trace.count (.run "go" ["install", tp.2]) ≤ 1 ∧
      (h.lookPath (targetDir h ++ [tp.1]) = true →
        (ensureToolsInstalled h (World.start fs)).2.trace.count
          (.run "go" ["install", tp.2]) = 0)) ∧
    ((∀ path fs', (h.run "go" ["install", path] fs').1 = none) →
      (∀ tp ∈ tools,
        (ensureToolsInstalled h (World.start fs)).2.trace.count (.run "go" ["install", tp.2])
          = if h.lookPath (targetDir h ++ [tp.1]) then 0 else 1) ∧
      (Event.httpGet (protocURL h.goos h.goarch)
          ∈ (ensureToolsInstalled h (World.start fs)).2.trace
        ↔ h.lookPath (targetDir h ++ ["protoc"]) = false)) := by
  obtain ⟨k, extra, htrace, hextra, hfull⟩ := ensureToolsInstalled_trace h (World.start fs)
  have hcount : ∀ e : Event, (∃ c a, e = .run c a) →
      (ensureToolsInstalled h (World.start fs)).2.trace.count e
        = ((((h.mapOrder tools).filter (fun tp => !h.lookPath (targetDir h ++ [tp.1]))).map
            (fun tp => Event.run "go" ["install", tp.2])).take k).count e := by
    rintro e ⟨c, a, rfl⟩
    rw [htrace]
    rcases hextra with rfl | rfl <;> simp [World.start]
  constructor
  · intro tp htp
    have hle := (List.take_sublist k
      (((h.mapOrder tools).filter (fun tp => !h.lookPath (targetDir h ++ [tp.1]))).map
        (fun tp => Event.run "go" ["install", tp.2]))).count_le (.run "go" ["install", tp.2])
    rw [count_install h.lookPath (targetDir h) _ hperm tp htp] at hle
    rw [hcount _ ⟨_, _, rfl⟩]
    constructor
    · split at hle <;> omega
    · intro hfound
      rw [hfound] at hle
      simpa using hle
  · intro hs
    obtain ⟨hk, hex⟩ := hfull hs
    constructor
    · intro tp htp
      rw [hcount _ ⟨_, _, rfl⟩, hk, count_install h.lookPath (targetDir h) _ hperm tp htp]
    · have hnot : Event.httpGet (protocURL h.goos h.goarch) ∉
          (((h.mapOrder tools).filter (fun tp => !h.lookPath (targetDir h ++ [tp.1]))).map
            (fun tp => Event.run "go" ["install", tp.2])).take k := by
        intro hm
        have := List.mem_of_mem_take hm
        simp at this
      rw [htrace, hex]
      cases hp : h.lookPath (targetDir h ++ ["protoc"]) <;> simp [World.start, hnot]

/-- C9 as stated fails when an install action fails: neither tool is found, the
first install fails, so the second tool is never installed and the archive is not
requested although `protoc` is not found. -/
theorem ensureToolsInstalled_stops_at_failure :
    failingInstallHost.lookPath (targetDir failingInstallHost ++ ["protoc-gen-go-grpc"]) = false ∧
    failingInstallHost.lookPath (targetDir failingInstallHost ++ ["protoc"]) = false ∧
    (ensureToolsInstalled failingInstallHost (World.start userTree)).2.trace
      = [.setenv "GOBIN" "/usr/local/bin",
         .run "go" ["install", "google.golang.org/protobuf/cmd/protoc-gen-go@latest"]] ∧
    (ensureToolsInstalled failingInstallHost (World.start userTree)).2.trace.count
      (.run "go" ["install", "google.golang.org/grpc/cmd/protoc-gen-go-grpc@latest"]) = 0 ∧
    Event.httpGet (protocURL "linux" "amd64")
      ∉ (ensureToolsInstalled failingInstallHost (World.start userTree)).2.trace := by
  decide

/-- C9, amended, on a host where one generator is found, the other and `protoc` are
not, and `go install` succeeds. -/
theorem ensureToolsInstalled_installs_witness :
    (ensureToolsInstalled partlyInstalledHost (World.start protoTree)).2.trace.count
      (.run "go" ["install", "google.golang.org/protobuf/cmd/protoc-gen-go@latest"]) = 0 ∧
    (ensureToolsInstalled partlyInstalledHost (World.start protoTree)).2.trace.count
      (.run "go" ["install", "google.golang.org/grpc/cmd/protoc-gen-go-grpc@latest"]) = 1 ∧
    Event.httpGet (protocURL "linux" "amd64")
      ∈ (ensureToolsInstalled partlyInstalledHost (World.start protoTree)).2.trace := by
  have hall := (ensureToolsInstalled_installs partlyInstalledHost protoTree
    (by decide)).2 (fun _ _ => rfl)
  refine ⟨?_, ?_, ?_⟩
  · exact hall.1 ("protoc-gen-go", "google.golang.org/protobuf/cmd/protoc-gen-go@latest")
      (by decide)
  · exact hall.1 ("protoc-gen-go-grpc", "google.golang.org/grpc/cmd/protoc-gen-go-grpc@latest")
      (by decide)
  · exact hall.2.mpr (by decide)

/-! ## Protocol -/

/-- C6 at a failing input: `ensureToolsInstalled` fails on the first install, and
`Protocol` still reads the protocol root, runs the compiler and returns no error. -/
theorem Protocol_drops_install_error :
    (ensureToolsInstalled failingInstallHost (World.start userTree)).1
      = some "failed to install protoc-gen-go: exit status 1" ∧
    (Protocol failingInstallHost (World.start userTree)).1 = none ∧
    (Protocol failingInstallHost (World.start userTree)).2.trace
      = [.setenv "GOBIN" "/usr/local/bin",
         .run "go" ["install", "google.golang.org/protobuf/cmd/protoc-gen-go@latest"],
         .readDir ["pkg", "protocol"],
         .run "protoc" ["--go_out=pkg/protocol/user",
           "--go_opt=module=github.com/openimsdk/openim-project-template/pkg/protocol/user",
           "--go-grpc_out=pkg/protocol/user",
           "--go-grpc_opt=module=github.com/openimsdk/openim-project-template/pkg/protocol/user",
           "pkg/protocol/user/user.proto"]] := by
  decide

theorem compileDirs_append (h : Host) : ∀ (pre rest : List DirEntry) (w : World),
    compileDirs h (pre ++ rest) w =
      match compileDirs h pre w with
      | (none, w1) => compileDirs h rest w1
      | (some err, w1) => (some err, w1) := by
  intro pre
  induction pre with
  | nil => intro rest w; rfl
  | cons d ds ih =>
    intro rest w
    simp only [List.cons_append, compileDirs]
    split
    · split
      · rfl
      · split
        · rfl
        · exact ih rest _
    · exact ih rest w

/-- C7, amended: when the protocol root lists a subdirectory `X`, and the compiler
invocation for `X` fails without changing a file (as it does when `X/X.proto` is
missing), `Protocol` has invoked the compiler for `X/X.proto` as its last action,
returns an error naming that file, processes no later entry, and leaves the file
system as it was after the subdirectories before `X` were compiled and patched. -/
theorem Protocol_fails_at_subdirectory (h : Host) (w w3 : World) (pre post : List DirEntry)
    (X err : String)
    (hdirs : h.readDir protoPath (ensureToolsInstalled h w).2.fs
      = .ok (pre ++ ⟨X, true⟩ :: post))
    (hpre : compileDirs h pre ((ensureToolsInstalled h w).2.log (.readDir protoPath))
      = (none, w3))
    (hfail : h.run "protoc" (protocArgs X) w3.fs = (some err, w3.fs)) :
    Protocol h w =
      (some ("failed to compile pkg/protocol/" ++ X ++ "/" ++ X ++ ".proto: " ++ err),
       { fs := w3.fs, trace := w3.trace ++ [.run "protoc" (protocArgs X)] }) := by
  have hrender : (protoFile X).render = "pkg/protocol/" ++ X ++ "/" ++ X ++ ".proto" := by
    simp [protoFile, protoPath, Path.render, String.intercalate, String.intercalate.go,
      String.append_assoc]
  unfold Protocol
  simp only [World.log] at hpre ⊢
  rw [hdirs]
  simp only []
  rw [compileDirs_append, hpre]
  simp only [compileDirs, World.run, hfail, if_true, hrender]
  have hmsg : ∀ Y : String, "failed to compile " ++ ("pkg/protocol/" ++ Y)
      = "failed to compile pkg/protocol/" ++ Y := by
    intro Y
    rw [← String.append_assoc]
    rfl
  simp [String.append_assoc, hmsg]

/-- C7 as stated fails: for the subdirectory `broken` without `broken.proto` the
compiler is invoked. -/
theorem Protocol_invokes_compiler_for_missing_proto :
    protoTree.node (protoFile "broken") = none ∧
    (Protocol compilerHost (World.start protoTree)).1
      = some "failed to compile pkg/protocol/broken/broken.proto: exit status 1" ∧
    Event.run "protoc" (protocArgs "broken")
      ∈ (Protocol compilerHost (World.start protoTree)).2.trace := by
  decide

/-- C7, amended, on a root with the subdirectories `alpha` and `broken`: `alpha` is
compiled and patched, the invocation for `broken` fails, and `alpha.pb.go` stays
as patched. -/
theorem Protocol_fails_at_subdirectory_witness :
    (Protocol compilerHost (World.start protoTree)).1
      = some "failed to compile pkg/protocol/broken/broken.proto: exit status 1" ∧
    (Protocol compilerHost (World.start protoTree)).2.trace
      = [.setenv "GOBIN" "/usr/local/bin", .readDir ["pkg", "protocol"],
         .run "protoc" (protocArgs "alpha"), .run "protoc" (protocArgs "broken")] ∧
    (Protocol compilerHost (World.start protoTree)).2.fs.content alphaPb
      = some untaggedSource := by
  have hw := Protocol_fails_at_subdirectory compilerHost (World.start protoTree)
    (compileDirs compilerHost [⟨"README.md", false⟩, ⟨"alpha", true⟩]
      ((ensureToolsInstalled compilerHost (World.start protoTree)).2.log
        (.readDir protoPath))).2
    [⟨"README.md", false⟩, ⟨"alpha", true⟩] [] "broken" "exit status 1" (by rfl)
    (Prod.ext (by decide) rfl) (by rfl)
  rw [hw]
  decide


/-! ## unzip -/

theorem mkdirAllAux_dir (perm n : Nat) (p : Path) (fs : FS) (m : Nat)
    (h : fs.node p = some (.dir m)) : mkdirAllAux perm n p fs = .ok fs := by
  cases n <;> simp [mkdirAllAux, h]

theorem mkdirAll_fresh (fs : FS) (p : Path) (perm m : Nat) (hp : p ≠ [])
    (hfree : fs.node p = none) (hparent : fs.node p.dropLast = some (.dir m)) :
    fs.mkdirAll p perm = .ok (fs.set p (.dir (maskPerm perm fs.umask))) := by
  obtain ⟨n, hn⟩ : ∃ n, p.length = n + 1 :=
    ⟨p.length - 1, by have := List.length_pos.mpr hp; omega⟩
  simp [FS.mkdirAll, hn, mkdirAllAux, hfree, mkdirAllAux_dir perm n _ fs m hparent,
    FS.mkdir, hparent]

theorem openTrunc_fresh (fs : FS) (p : Path) (perm m : Nat)
    (hfree : fs.node p = none) (hparent : fs.node p.dropLast = some (.dir m)) :
    fs.openTrunc p perm = .ok (fs.set p (.file (maskPerm perm fs.umask) [])) := by
  simp [FS.openTrunc, hfree, hparent]

theorem set_append (fs : FS) (p : Path) (m : Nat) (data : List Byte) :
    (fs.set p (.file m [])).append p data = fs.set p (.file m data) := by
  have hn : (fs.set p (.file m [])).node p = some (.file m []) := by simp [FS.set]
  simp only [FS.append, hn, FS.set_set, List.nil_append]

/-- Cleaning leaves plain components alone: they are pushed on the stack. -/
theorem foldl_cleanStep_plain (rooted : Bool) : ∀ (name kept : List String),
    (∀ c ∈ name, c ≠ "" ∧ c ≠ "." ∧ c ≠ "..") →
    name.foldl (cleanStep rooted) kept = name.reverse ++ kept := by
  intro name
  induction name with
  | nil => intro kept _; rfl
  | cons c cs ih =>
    intro kept h
    obtain ⟨h1, h2, h3⟩ := h c (List.mem_cons_self _ _)
    simp [cleanStep, h1, h2, h3, ih _ (fun x hx => h x (List.mem_cons_of_mem _ hx))]

/-- Under a clean destination, the joined path of a name of plain components is the
destination followed by the name. -/
theorem Join_plain (dest name : Path) (hdest : Clean dest = dest)
    (hname : ∀ c ∈ name, c ≠ "" ∧ c ≠ "." ∧ c ≠ "..") : Join [dest, name] = dest ++ name := by
  have hflat : [dest, name].flatten = dest ++ name := by simp
  unfold Join
  rw [hflat]
  cases dest with
  | nil =>
    cases name with
    | nil => rfl
    | cons c cs =>
      have hc := (hname c (List.mem_cons_self _ _)).1
      simp [Clean, hc, foldl_cleanStep_plain false (c :: cs) [] hname]
  | cons d ds =>
    by_cases hd : d = ""
    · subst hd
      have h1 : (ds.foldl (cleanStep true) []).reverse = ds := by
        simpa [Clean] using hdest
      simp [Clean, List.foldl_append, foldl_cleanStep_plain true name _ hname, h1]
    · have h1 : ((d :: ds).foldl (cleanStep false) []).reverse = d :: ds := by
        simpa [Clean, hd] using hdest
      have h2 : ((d :: ds ++ name).foldl (cleanStep false) []).reverse = d :: ds ++ name := by
        rw [List.foldl_append, foldl_cleanStep_plain false name _ hname, List.reverse_append,
          List.reverse_reverse, h1]
      simpa [Clean, hd] using h2

/-- The extraction loop on an archive whose entries have distinct joined paths, none
present yet, each with its parent directory present or made by an earlier
directory entry, and each file readable. -/
theorem unzipLoop_extracts (dest : Path) : ∀ (files : List ZipEntry) (fs : FS),
    (∀ f ∈ files, Join [dest, f.name] ≠ []) →
    (files.map (fun f => Join [dest, f.name])).Nodup →
    (∀ f ∈ files, fs.node (Join [dest, f.name]) = none) →
    (∀ pre f post, files = pre ++ f :: post →
      (∃ m, fs.node (Join [dest, f.name]).dropLast = some (.dir m)) ∨
      ∃ d ∈ pre, d.isDir = true ∧ Join [dest, d.name] = (Join [dest, f.name]).dropLast) →
    (∀ f ∈ files, f.isDir = false → ∃ data, f.data = .ok data) →
    ∃ fs', unzipLoop dest files fs = (none, fs') ∧ fs'.umask = fs.umask ∧
      (∀ f ∈ files,
        (f.isDir = true →
          fs'.node (Join [dest, f.name]) = some (.dir (maskPerm 0o777 fs.umask))) ∧
        (f.isDir = false → ∀ data, f.data = .ok data →
          fs'.node (Join [dest, f.name]) = some (.file (maskPerm f.perm fs.umask) data))) ∧
      (∀ q, (∀ f ∈ files, q ≠ Join [dest, f.name]) → fs'.node q = fs.node q) := by
  intro files
  induction files with
  | nil =>
    intro fs _ _ _ _ _
    exact ⟨fs, rfl, rfl, by simp, fun _ _ => rfl⟩
  | cons f rest ih =>
    intro fs hne hnodup hfresh hparent hdata
    have hfne : Join [dest, f.name] ≠ [] := hne f (List.mem_cons_self _ _)
    have hffree : fs.node (Join [dest, f.name]) = none := hfresh f (List.mem_cons_self _ _)
    obtain ⟨m, hm⟩ : ∃ m, fs.node (Join [dest, f.name]).dropLast = some (.dir m) := by
      rcases hparent [] f rest rfl with h1 | ⟨d, hd, _⟩
      · exact h1
      · simp at hd
    have hnd := List.nodup_cons.mp hnodup
    have hdiff : ∀ g ∈ rest, Join [dest, g.name] ≠ Join [dest, f.name] := by
      intro g hg e
      exact hnd.1 (List.mem_map.mpr ⟨g, hg, e⟩)
    -- the step for `f` replaces the free path by the node of `f`
    have hstep : ∃ nd : Node, (f.isDir = true → nd = .dir (maskPerm 0o777 fs.umask)) ∧
        (f.isDir = false → ∀ data, f.data = .ok data →
          nd = .file (maskPerm f.perm fs.umask) data) ∧
        (f.isDir = true → ∃ k, nd = .dir k) ∧
        unzipLoop dest (f :: rest) fs
          = unzipLoop dest rest (fs.set (Join [dest, f.name]) nd) := by
      cases hd : f.isDir with
      | true =>
        refine ⟨.dir (maskPerm 0o777 fs.umask), fun _ => rfl, by simp, fun _ => ⟨_, rfl⟩, ?_⟩
        simp only [unzipLoop, hd, if_true]
        rw [mkdirAll_fresh fs _ 0o777 m hfne hffree hm]
      | false =>
        obtain ⟨data, hdat⟩ := hdata f (List.mem_cons_self _ _) hd
        refine ⟨.file (maskPerm f.perm fs.umask) data, by simp, ?_, by simp, ?_⟩
        · intro _ data' h'
          rw [hdat] at h'
          cases h'
          rfl
        · simp only [unzipLoop, hd, Bool.false_eq_true, if_false]
          rw [openTrunc_fresh fs _ f.perm m hffree hm]
          simp only [hdat, set_append]
    obtain ⟨nd, hnd1, hnd2, hnd3, hloop⟩ := hstep
    have hset : ∀ q, q ≠ Join [dest, f.name] →
        (fs.set (Join [dest, f.name]) nd).node q = fs.node q := by
      intro q hq
      simp [FS.set, hq]
    have hself : (fs.set (Join [dest, f.name]) nd).node (Join [dest, f.name]) = some nd := by
      simp [FS.set]
    obtain ⟨fs', hrun, humask, hnodes, hframe⟩ := ih (fs.set (Join [dest, f.name]) nd)
      (fun g hg => hne g (List.mem_cons_of_mem _ hg)) hnd.2
      (fun g hg => by
        rw [hset _ (hdiff g hg)]
        exact hfresh g (List.mem_cons_of_mem _ hg))
      (by
        intro pre g post hsplit
        rcases hparent (f :: pre) g post (by rw [hsplit]; rfl) with ⟨k, hk⟩ | ⟨d, hd, hdir, hname⟩
        · left
          refine ⟨k, ?_⟩
          rw [hset _ (fun e => by rw [e, hffree] at hk; cases hk)]
          exact hk
        · rcases List.mem_cons.mp hd with rfl | hd'
          · left
            obtain ⟨k, hk⟩ := hnd3 hdir
            exact ⟨k, by rw [← hname, hself, hk]⟩
          · exact Or.inr ⟨d, hd', hdir, hname⟩)
      (fun g hg => hdata g (List.mem_cons_of_mem _ hg))
    have hu : (fs.set (Join [dest, f.name]) nd).umask = fs.umask := rfl
    refine ⟨fs', by rw [hloop, hrun], by rw [humask, hu], ?_, ?_⟩
    · intro g hg
      rcases List.mem_cons.mp hg with rfl | hg'
      · have hkeep : fs'.node (Join [dest, g.name]) = some nd := by
          rw [hframe _ (fun x hx e => hdiff x hx e.symm), hself]
        constructor
        · intro hd
          rw [hkeep, hnd1 hd]
        · intro hd data hdat
          rw [hkeep, hnd2 hd data hdat]
      · have := hnodes g hg'
        rw [hu] at this
        exact this
    · intro q hq
      rw [hframe q (fun g hg => hq g (List.mem_cons_of_mem _ hg)),
        hset q (hq f (List.mem_cons_self _ _))]

/-- The joined paths are what the real `filepath.Join` gives: `./a` lands on the file
of `a` and `../evil` outside the destination `opt`. -/
theorem unzip_joined_paths :
    (unzip dottedArchiveHost ["tmp", "protoc-1.zip"] ["opt"] installTree).1 = none ∧
    (unzip dottedArchiveHost ["tmp", "protoc-1.zip"] ["opt"] installTree).2.node ["opt", "a"]
      = some (.file 0o644 (bytes "2")) ∧
    (unzip dottedArchiveHost ["tmp", "protoc-1.zip"] ["opt"] installTree).2.node ["evil"]
      = some (.file 0o644 (bytes "x")) ∧
    (unzip dottedArchiveHost ["tmp", "protoc-1.zip"] ["opt"] installTree).2.node
      ["opt", ".", "a"] = none ∧
    (unzip dottedArchiveHost ["tmp", "protoc-1.zip"] ["opt"] installTree).2.node
      ["opt", "..", "evil"] = none := by
  decide

/-- C8, amended: for an archive of `N` entries whose paths `filepath.Join(dest, name)`
are distinct and not yet present, in which every entry's parent directory exists
already or is made by a directory entry earlier in the archive, and every file
entry can be read, `unzip` succeeds; at each entry's joined path there is then a
directory (mode 0777 less the umask) or a file with the entry's bytes and the
entry's permission bits less the umask; no other path has changed, so exactly the
`N` entries were made; and under a clean destination the joined path of a name
without empty, `.` or `..` component is the name under the destination. -/
theorem unzip_extracts (h : Host) (src dest : Path) (fs : FS) (raw : List Byte)
    (files : List ZipEntry)
    (hsrc : fs.content src = some raw)
    (hzip : h.zipEntries raw = .ok files)
    (hnodup : (files.map (fun f => Join [dest, f.name])).Nodup)
    (hfresh : ∀ f ∈ files, fs.node (Join [dest, f.name]) = none)
    (hparent : ∀ pre f post, files = pre ++ f :: post →
      (∃ m, fs.node (Join [dest, f.name]).dropLast = some (.dir m)) ∨
      ∃ d ∈ pre, d.isDir = true ∧ Join [dest, d.name] = (Join [dest, f.name]).dropLast)
    (hdata : ∀ f ∈ files, f.isDir = false → ∃ data, f.data = .ok data) :
    ∃ fs', unzip h src dest fs = (none, fs') ∧
      (∀ f ∈ files,
        (f.isDir = true →
          fs'.node (Join [dest, f.name]) = some (.dir (maskPerm 0o777 fs.umask))) ∧
        (f.isDir = false → ∀ data, f.data = .ok data →
          fs'.node (Join [dest, f.name]) = some (.file (maskPerm f.perm fs.umask) data))) ∧
      (∀ q, (∀ f ∈ files, q ≠ Join [dest, f.name]) → fs'.node q = fs.node q) ∧
      (Clean dest = dest → ∀ f ∈ files, (∀ c ∈ f.name, c ≠ "" ∧ c ≠ "." ∧ c ≠ "..") →
        Join [dest, f.name] = dest ++ f.name) := by
  have hnames : ∀ f ∈ files, Join [dest, f.name] ≠ [] := by
    intro f hf hnil
    obtain ⟨pre, post, hsplit⟩ := List.append_of_mem hf
    rcases hparent pre f post hsplit with ⟨m, hm⟩ | ⟨d, hd, _, hname⟩
    · have hnone := hfresh f hf
      rw [hnil] at hm hnone
      rw [List.dropLast_nil, hnone] at hm
      cases hm
    · rw [hnil, List.dropLast_nil] at hname
      rw [hsplit, List.map_append, List.map_cons, hnil] at hnodup
      have hmem : ([] : Path) ∈ pre.map (fun f => Join [dest, f.name]) :=
        List.mem_map.mpr ⟨d, hd, hname⟩
      exact (List.nodup_append.mp hnodup).2.2 hmem (List.mem_cons_self _ _)
  obtain ⟨fs', hrun, _, hnodes, hframe⟩ :=
    unzipLoop_extracts dest files fs hnames hnodup hfresh hparent hdata
  exact ⟨fs', by simp [unzip, hsrc, hzip, hrun], hnodes, hframe,
    fun hdest f _ hplain => Join_plain dest f.name hdest hplain⟩

/-- C8 as stated fails: for a well-formed archive whose only entry is the file
`bin/protoc`, `unzip` into the existing empty directory `opt` makes no directory
`opt/bin` and returns the error of opening the file. -/
theorem unzip_fails_without_directory_entry :
    (unzip flatArchiveHost ["tmp", "protoc-1.zip"] ["opt"] installTree).1
      = some "open opt/bin/protoc: no such file or directory" ∧
    (unzip flatArchiveHost ["tmp", "protoc-1.zip"] ["opt"] installTree).2.node
      ["opt", "bin", "protoc"] = none := by
  decide

/-- C8, amended, on an archive with the directory entry `bin/` before `bin/protoc`
and a file `readme.txt`, under umask 022. -/
theorem unzip_extracts_witness :
    (unzip archiveHost ["tmp", "protoc-1.zip"] ["opt"] installTree).1 = none ∧
    (unzip archiveHost ["tmp", "protoc-1.zip"] ["opt"] installTree).2.node ["opt", "bin"]
      = some (.dir 0o755) ∧
    (unzip archiveHost ["tmp", "protoc-1.zip"] ["opt"] installTree).2.node
      ["opt", "bin", "protoc"] = some (.file 0o755 (bytes "ELF")) ∧
    (unzip archiveHost ["tmp", "protoc-1.zip"] ["opt"] installTree).2.node
      ["opt", "readme.txt"] = some (.file 0o644 (bytes "protoc 26.1\n")) := by
  obtain ⟨fs', hrun, hnodes, _⟩ := unzip_extracts archiveHost ["tmp", "protoc-1.zip"]
    ["opt"] installTree (bytes "PK")
    [⟨["bin", ""], true, 0o755, .ok []⟩,
     ⟨["bin", "protoc"], false, 0o755, .ok (bytes "ELF")⟩,
     ⟨["readme.txt"], false, 0o666, .ok (bytes "protoc 26.1\n")⟩]
    (by rfl) (by rfl) (by decide) (by decide)
    (by
      intro pre f post hsplit
      rcases pre with _ | ⟨a, _ | ⟨b, _ | ⟨c, pre⟩⟩⟩
      · simp at hsplit
        obtain ⟨rfl, _⟩ := hsplit
        exact Or.inl ⟨0o755, by decide⟩
      · simp at hsplit
        obtain ⟨rfl, rfl, _⟩ := hsplit
        exact Or.inr ⟨_, List.mem_singleton_self _, rfl, by decide⟩
      · simp at hsplit
        obtain ⟨_, _, rfl, _⟩ := hsplit
        exact Or.inl ⟨0o755, by decide⟩
      · simp at hsplit)
    (by
      intro f hf hd
      simp at hf
      rcases hf with rfl | rfl | rfl
      · simp at hd
      · exact ⟨_, rfl⟩
      · exact ⟨_, rfl⟩)
  have e1 : Join [["opt"], ["bin", ""]] = ["opt", "bin"] := by decide
  have e2 : Join [["opt"], ["bin", "protoc"]] = ["opt", "bin", "protoc"] := by decide
  have e3 : Join [["opt"], ["readme.txt"]] = ["opt", "readme.txt"] := by decide
  have n1 := (hnodes ⟨["bin", ""], true, 0o755, .ok []⟩ (by simp)).1 rfl
  have n2 := (hnodes ⟨["bin", "protoc"], false, 0o755, .ok (bytes "ELF")⟩ (by simp)).2 rfl
    _ rfl
  have n3 := (hnodes ⟨["readme.txt"], false, 0o666, .ok (bytes "protoc 26.1\n")⟩
    (by simp)).2 rfl _ rfl
  rw [e1] at n1
  rw [e2] at n2
  rw [e3] at n3
  rw [hrun]
  exact ⟨rfl, n1.trans (by decide), n2.trans (by decide), n3.trans (by decide)⟩


end ProjectTemplate
